import Mathlib

/-!
Verification of the two core subsystems of the Mini-Agent repository:

* the relevance-based context selector
  (`src/mini_agent/tools/context_selector.py`, class `ContextSelector`), and
* the context-budget enforcer
  (`src/mini_agent/llm/base.py`, method `LLMClientBase.enforce_context_limit`).

The Python code is shallowly embedded: every pure computation becomes a Lean
function; Python `float` arithmetic is modelled exactly over `ℚ`; machine-level
collaborators that live outside the verified sources (the `tiktoken` encoder,
`truncate_text_by_tokens` from `file_tools`, `json.dumps` of tool-call records,
`float(...)` string parsing, `str(...)` rendering of numbers, and the wall
clock `time.time()`) are abstract parameters, so every theorem holds for every
behaviour of those collaborators.
-/

namespace MiniAgent

/-! ### Python numeric primitives -/

/-- Python `int(q)` on a real number: truncation toward zero (computed on the
normalized numerator/denominator so that it evaluates in the kernel). -/
def pyTrunc (q : ℚ) : ℤ :=
  if 0 ≤ q.num then q.num / (q.den : ℤ) else -((-q.num) / (q.den : ℤ))

/-- `pyTrunc` is the floor of nonnegative arguments and the ceiling of
negative ones. -/
theorem pyTrunc_eq (q : ℚ) : pyTrunc q = if 0 ≤ q then ⌊q⌋ else ⌈q⌉ := by
  unfold pyTrunc
  by_cases h : 0 ≤ q
  · rw [if_pos (Rat.num_nonneg.mpr h), if_pos h, Rat.floor_def]
  · rw [if_neg (fun hc => h (Rat.num_nonneg.mp hc)), if_neg h]
    have hfloor : ⌊-q⌋ = (-q.num) / ((q.den : ℤ)) := by
      rw [Rat.floor_def, Rat.num_neg_eq_neg_num, Rat.den_neg_eq_den]
    rw [← neg_neg ⌈q⌉, ← Int.floor_neg, hfloor]

theorem pyTrunc_intCast (z : ℤ) : pyTrunc (z : ℚ) = z := by
  rw [pyTrunc_eq]
  split <;> simp

theorem pyTrunc_natCast (n : ℕ) : pyTrunc (n : ℚ) = n := by
  have := pyTrunc_intCast (n : ℤ)
  simpa using this

theorem pyTrunc_mono {q r : ℚ} (h : q ≤ r) : pyTrunc q ≤ pyTrunc r := by
  rw [pyTrunc_eq, pyTrunc_eq]
  split <;> split
  · exact Int.floor_le_floor h
  · rename_i h1 h2
    exact absurd (le_trans h1 h) h2
  · rename_i h1 h2
    calc ⌈q⌉ ≤ 0 := Int.ceil_le.mpr (by exact_mod_cast le_of_not_le h1)
    _ ≤ ⌊r⌋ := by positivity
  · exact Int.ceil_le_ceil h

theorem pyTrunc_le_of_le_nat {q : ℚ} {n : ℕ} (h : q ≤ n) : pyTrunc q ≤ n := by
  have := pyTrunc_mono h
  rwa [pyTrunc_natCast] at this

/-! ### Python `str.split()` (whitespace words) and `" ".join`

`text.split()` splits on runs of whitespace and never returns empty words.
It is implemented below by structural recursion over the character list so
that all theorems and witnesses evaluate inside the kernel. -/

/-- Accumulator-based splitter: `cur` holds the current word, reversed. -/
def pyWordsAux : List Char → List Char → List (List Char)
  | [], cur => if cur = [] then [] else [cur.reverse]
  | c :: cs, cur =>
    if c.isWhitespace then
      if cur = [] then pyWordsAux cs [] else cur.reverse :: pyWordsAux cs []
    else pyWordsAux cs (c :: cur)

/-- `text.split()` on a character list. -/
def pyWordsC (cs : List Char) : List (List Char) := pyWordsAux cs []

/-- `text.split()` returning strings. -/
def pyWords (s : String) : List String := (pyWordsC s.data).map String.mk

/-- `" ".join(words)` on character lists. -/
def unwordsC : List (List Char) → List Char
  | [] => []
  | [w] => w
  | w :: ws => w ++ ' ' :: unwordsC ws

/-- `" ".join(words)` on strings. -/
def joinWords (ws : List String) : String := String.mk (unwordsC (ws.map String.data))

theorem pyWordsAux_append_word (w : List Char) (hw : ∀ c ∈ w, c.isWhitespace = false) :
    ∀ (cs cur : List Char), pyWordsAux (w ++ cs) cur = pyWordsAux cs (w.reverse ++ cur) := by
  induction w with
  | nil => intro cs cur; simp [pyWordsAux]
  | cons c w ih =>
    intro cs cur
    have hc : c.isWhitespace = false := hw c (by simp)
    have hw' : ∀ x ∈ w, x.isWhitespace = false := fun x hx => hw x (by simp [hx])
    have step : pyWordsAux ((c :: w) ++ cs) cur = pyWordsAux (w ++ cs) (c :: cur) := by
      simp [pyWordsAux, hc]
    rw [step, ih hw' cs (c :: cur)]
    simp

/-- Every word produced by the splitter is nonempty and whitespace-free. -/
theorem pyWordsAux_sound :
    ∀ (cs cur : List Char), (∀ c ∈ cur, c.isWhitespace = false) →
      ∀ w ∈ pyWordsAux cs cur, w ≠ [] ∧ ∀ c ∈ w, c.isWhitespace = false := by
  intro cs
  induction cs with
  | nil =>
    intro cur hcur w hw
    by_cases h : cur = []
    · simp [pyWordsAux, h] at hw
    · simp [pyWordsAux, h] at hw
      subst hw
      refine ⟨by simpa using h, ?_⟩
      intro c hc
      exact hcur c (by simpa using hc)
  | cons c cs ih =>
    intro cur hcur w hw
    by_cases hws : c.isWhitespace
    · by_cases h : cur = []
      · simp [pyWordsAux, hws, h] at hw
        exact ih [] (by simp) w hw
      · simp [pyWordsAux, hws, h] at hw
        rcases hw with hw | hw
        · subst hw
          refine ⟨by simpa using h, ?_⟩
          intro x hx
          exact hcur x (by simpa using hx)
        · exact ih [] (by simp) w hw
    · simp only [pyWordsAux, hws, Bool.false_eq_true, if_false] at hw
      refine ih (c :: cur) ?_ w hw
      intro x hx
      rcases List.mem_cons.mp hx with hx | hx
      · subst hx; simpa using hws
      · exact hcur x hx

theorem pyWordsC_sound (cs : List Char) :
    ∀ w ∈ pyWordsC cs, w ≠ [] ∧ ∀ c ∈ w, c.isWhitespace = false :=
  pyWordsAux_sound cs [] (by simp)

/-- Splitting the `" "`-join of clean words returns exactly those words. -/
theorem pyWordsC_unwordsC (ws : List (List Char))
    (h : ∀ w ∈ ws, w ≠ [] ∧ ∀ c ∈ w, c.isWhitespace = false) :
    pyWordsC (unwordsC ws) = ws := by
  induction ws with
  | nil => rfl
  | cons w ws ih =>
    rcases h w (by simp) with ⟨hne, hclean⟩
    cases ws with
    | nil =>
      have h2 := pyWordsAux_append_word w hclean [] []
      simp only [List.append_nil] at h2
      show pyWordsAux w [] = [w]
      rw [h2]
      simp [pyWordsAux, hne]
    | cons w2 ws2 =>
      have htail : pyWordsC (unwordsC (w2 :: ws2)) = w2 :: ws2 :=
        ih (fun x hx => h x (by simp [hx]))
      have hne2 : w.reverse ++ ([] : List Char) ≠ [] := by simpa using hne
      show pyWordsAux (w ++ ' ' :: unwordsC (w2 :: ws2)) [] = w :: w2 :: ws2
      rw [pyWordsAux_append_word w hclean]
      have hsp : (' ' : Char).isWhitespace = true := by decide
      simp only [pyWordsAux, hsp, if_true, if_neg hne2]
      rw [List.append_nil, List.reverse_reverse]
      exact congrArg (w :: ·) htail

/-! ### Context selector (`src/mini_agent/tools/context_selector.py`)

`ContextSelector(avg_tokens_per_word)` is modelled by passing the factor `f`
explicitly.  Python `float` arithmetic is modelled over `ℚ`; `time.time()` is
the parameter `now`; `float(string)` parsing is the parameter `pf` (with
`none` meaning the parse raises); `str(float)` rendering is the parameter
`ps`. -/

/-- A metadata/record value: a Python number or a string. -/
inductive MVal where
  | num (q : ℚ)
  | str (s : String)
deriving DecidableEq

/-- Python truthiness of a value (`0`, `0.0`, `""` are falsy). -/
def MVal.truthy : MVal → Bool
  | .num q => !(q == 0)
  | .str s => !(s == "")

/-- Python `float(v)`: numbers convert exactly; strings go through the parser
`pf`, where `none` models a raised `ValueError`. -/
def MVal.toFloat (pf : String → Option ℚ) : MVal → Option ℚ
  | .num q => some q
  | .str s => pf s

/-- Python `str(v)`: `ps` renders numbers, strings are unchanged. -/
def MVal.toStr (ps : ℚ → String) : MVal → String
  | .num q => ps q
  | .str s => s

/-- One element of a caller-supplied pool: raw text, a key-value record, or
any other object (carried as its `str(...)` rendering). -/
inductive PoolEntry where
  | raw (s : String)
  | record (fields : List (String × MVal))
  | other (s : String)
deriving DecidableEq

/-- `ContextItem` dataclass from `context_selector.py`. -/
structure ContextItem where
  source : String
  text : String
  metadata : List (String × MVal)
  score : ℚ := 0
deriving DecidableEq

/-- One returned record of `select_context`
(`{source, text, metadata, score, est_tokens}`). -/
structure SelectedItem where
  source : String
  text : String
  metadata : List (String × MVal)
  score : ℚ
  est_tokens : ℕ
deriving DecidableEq

instance exceptDecEq {ε α : Type} [DecidableEq ε] [DecidableEq α] :
    DecidableEq (Except ε α) := fun x y =>
  match x, y with
  | .error a, .error b =>
    if h : a = b then isTrue (h ▸ rfl) else isFalse (fun hc => h (Except.error.inj hc))
  | .error _, .ok _ => isFalse (fun hc => Except.noConfusion hc)
  | .ok _, .error _ => isFalse (fun hc => Except.noConfusion hc)
  | .ok a, .ok b =>
    if h : a = b then isTrue (h ▸ rfl) else isFalse (fun hc => h (Except.ok.inj hc))

/-- `metadata.get(k)`: first binding of key `k`, if any. -/
def mget (md : List (String × MVal)) (k : String) : Option MVal :=
  (md.find? (fun p => p.1 == k)).map (·.2)

/-- Number of words of a text, as `len(text.split())`. -/
def nWords (s : String) : ℕ := (pyWordsC s.data).length

/-- `ContextSelector._estimate_tokens`: `max(1, int(len(words) * f))`. -/
def estimate_tokens (f : ℚ) (text : String) : ℕ :=
  (max 1 (pyTrunc ((nWords text : ℚ) * f))).toNat

/-- Python `w.lower()` (character-wise lowering, as in `str.lower` for the
ASCII range; implemented on the character list so it evaluates in the
kernel). -/
def pyLower (s : String) : String := String.mk (s.data.map Char.toLower)

/-- The case-insensitive word set of a text. -/
def wordSet (s : String) : Finset String := ((pyWords s).map pyLower).toFinset

/-- `ContextSelector._lexical_score`. -/
def lexical_score (query text : String) : ℚ :=
  let q := wordSet query
  let t := wordSet text
  if q = ∅ ∨ t = ∅ then 0
  else ((q ∩ t).card : ℚ) / (max 1 q.card : ℕ)

/-- `ContextSelector._recency_score`; raises (`.error`) when `metadata["ts"]`
is a truthy string that does not parse as a float. -/
def recency_score (pf : String → Option ℚ) (now : ℚ)
    (md : List (String × MVal)) : Except String ℚ :=
  match mget md "ts" with
  | none => .ok 0
  | some v =>
    if v.truthy then
      match v.toFloat pf with
      | none => .error "ValueError: could not convert string to float"
      | some ts => .ok (1 / (1 + max 0 (now - ts) / 86400))
    else .ok 0

/-- `ContextSelector._importance_score`; parse failures are caught and give 0. -/
def importance_score (pf : String → Option ℚ) (md : List (String × MVal)) : ℚ :=
  match mget md "w" with
  | none => 0
  | some v => (v.toFloat pf).getD 0

/-- `ContextSelector.score_item`: `0.7·lexical + 0.2·recency + 0.1·importance`. -/
def score_item (pf : String → Option ℚ) (now : ℚ) (query : String)
    (it : ContextItem) : Except String ℚ := do
  let lex := lexical_score query it.text
  let r ← recency_score pf now it.metadata
  let imp := importance_score pf it.metadata
  pure (7/10 * lex + 2/10 * r + 1/10 * imp)

/-- Python `a or b` on an optional value, by truthiness. -/
def pyOrV (a : Option MVal) (b : MVal) : MVal :=
  match a with
  | some v => if v.truthy then v else b
  | none => b

/-- The local `normalize` helper of `select_context`. -/
def normalize (ps : ℚ → String) (src : String) : PoolEntry → ContextItem
  | .raw s => ⟨src, s, [], 0⟩
  | .record fs =>
    let tv := pyOrV (mget fs "text") (pyOrV (mget fs "content") (.str ""))
    ⟨src, tv.toStr ps, fs.filter (fun p => !(p.1 == "text") && !(p.1 == "content")), 0⟩
  | .other s => ⟨src, s, [], 0⟩

/-- The sort order of `select_context`: Python
`items.sort(key=lambda x: (x.score, -len(x.text)), reverse=True)`, i.e.
descending by score with ties broken by *character* length of `text`,
shorter first (stable). -/
def keyGe (a b : ContextItem) : Prop :=
  b.score < a.score ∨ (a.score = b.score ∧ a.text.length ≤ b.text.length)

instance decKeyGe : DecidableRel keyGe := fun a b =>
  inferInstanceAs (Decidable (b.score < a.score ∨ (a.score = b.score ∧ a.text.length ≤ b.text.length)))

instance : IsTotal ContextItem keyGe := by
  constructor
  intro a b
  rcases lt_trichotomy a.score b.score with h | h | h
  · exact Or.inr (Or.inl h)
  · rcases Nat.le_total a.text.length b.text.length with hl | hl
    · exact Or.inl (Or.inr ⟨h, hl⟩)
    · exact Or.inr (Or.inr ⟨h.symm, hl⟩)
  · exact Or.inl (Or.inl h)

instance : IsTrans ContextItem keyGe := by
  constructor
  intro a b c hab hbc
  rcases hab with h1 | ⟨h1, h1l⟩ <;> rcases hbc with h2 | ⟨h2, h2l⟩
  · exact Or.inl (h2.trans h1)
  · exact Or.inl (h2 ▸ h1)
  · exact Or.inl (lt_of_lt_of_eq h2 h1.symm)
  · exact Or.inr ⟨h1.trans h2, h1l.trans h2l⟩

/-- The word-level truncation of the ≥0.6-score branch:
`" ".join(words[: max(1, int(remaining / max(1, f)))])`. -/
def truncWords (f : ℚ) (text : String) (remaining : ℕ) : String :=
  joinWords ((pyWords text).take (max 1 (pyTrunc ((remaining : ℚ) / max 1 f))).toNat)

/-- The greedy fill loop of `select_context` over the sorted items, carrying
`used_tokens`. -/
def greedy_fill (f : ℚ) (budget : ℕ) : List ContextItem → ℕ → List SelectedItem
  | [], _ => []
  | it :: rest, used =>
    let est := estimate_tokens f it.text
    if budget < used + est then
      if 6/10 ≤ it.score ∧ used < budget then
        let selText := truncWords f it.text (budget - used)
        let selEst := estimate_tokens f selText
        ⟨it.source, selText, it.metadata, it.score, selEst⟩ ::
          greedy_fill f budget rest (used + selEst)
      else greedy_fill f budget rest used
    else
      if budget ≤ used + est then [⟨it.source, it.text, it.metadata, it.score, est⟩]
      else ⟨it.source, it.text, it.metadata, it.score, est⟩ ::
        greedy_fill f budget rest (used + est)

/-- The scoring loop of `select_context` (`for it in items: it.score = ...`);
the first raised `ValueError` propagates. -/
def score_items (pf : String → Option ℚ) (now : ℚ) (query : String) :
    List ContextItem → Except String (List ContextItem)
  | [] => .ok []
  | it :: rest => do
    let s ← score_item pf now query it
    let tail ← score_items pf now query rest
    pure ({ it with score := s } :: tail)

/-- The normalized item list assembled from the three pools, in pool order
(`documents or []`, then messages, then tool outputs). -/
def poolItems (ps : ℚ → String)
    (documents messages tools_outputs : Option (List PoolEntry)) : List ContextItem :=
  (documents.getD []).map (normalize ps "document")
    ++ (messages.getD []).map (normalize ps "message")
    ++ (tools_outputs.getD []).map (normalize ps "tool")

/-- `ContextSelector.select_context` (reference default `token_budget=1500`).
The three pools default to `None`, modelled as `Option` with `getD []` for
`documents or []`; a `ValueError` raised while scoring propagates as
`.error`. -/
def select_context (pf : String → Option ℚ) (ps : ℚ → String) (now f : ℚ)
    (query : String) (documents messages tools_outputs : Option (List PoolEntry))
    (token_budget : ℕ) : Except String (List SelectedItem) :=
  match score_items pf now query (poolItems ps documents messages tools_outputs) with
  | .error e => .error e
  | .ok scored =>
    .ok (greedy_fill f token_budget (List.insertionSort keyGe scored) 0)

/-! ### Selector lemmas -/

/-- Total estimated tokens of a returned selection. -/
def sumEst (l : List SelectedItem) : ℕ := (l.map (·.est_tokens)).sum

/-- The one-word estimate `max(1, int(f))`, an upper bound for the size of a
minimal truncated inclusion. -/
def oneWordEst (f : ℚ) : ℕ := (max 1 (pyTrunc f)).toNat

theorem one_le_oneWordEst (f : ℚ) : 1 ≤ oneWordEst f := by
  unfold oneWordEst
  have h : (1 : ℤ) ≤ max 1 (pyTrunc f) := le_max_left _ _
  omega

theorem one_le_estimate_tokens (f : ℚ) (t : String) : 1 ≤ estimate_tokens f t := by
  unfold estimate_tokens
  have h : (1 : ℤ) ≤ max 1 (pyTrunc ((nWords t : ℚ) * f)) := le_max_left _ _
  omega

theorem pyTrunc_le_self {q : ℚ} (h : 0 ≤ q) : (pyTrunc q : ℚ) ≤ q := by
  rw [pyTrunc_eq, if_pos h]
  exact Int.floor_le q

/-- Once `used_tokens` has reached the budget, the fill loop appends nothing
more (every item fails both the full-inclusion and the truncation guard). -/
theorem greedy_fill_done (f : ℚ) (budget : ℕ) :
    ∀ (items : List ContextItem) (used : ℕ), budget ≤ used →
      greedy_fill f budget items used = [] := by
  intro items
  induction items with
  | nil => intro used _; rfl
  | cons it rest ih =>
    intro used hu
    have hest := one_le_estimate_tokens f it.text
    have hover : budget < used + estimate_tokens f it.text := by omega
    have hguard : ¬((6 : ℚ)/10 ≤ it.score ∧ used < budget) := by
      rintro ⟨-, hlt⟩; omega
    simp only [greedy_fill, if_pos hover, if_neg hguard]
    exact ih used hu

theorem map_data_mk (l : List (List Char)) : (l.map String.mk).map String.data = l := by
  induction l with
  | nil => rfl
  | cons a l ih => simpa using ih

/-- Word count of the word-level truncation used in the ≥0.6 branch. -/
theorem nWords_joinWords_take (text : String) (k : ℕ) :
    nWords (joinWords ((pyWords text).take k)) = min k (nWords text) := by
  unfold joinWords pyWords
  rw [← List.map_take, map_data_mk]
  show (pyWordsC (unwordsC ((pyWordsC text.data).take k))).length = _
  rw [pyWordsC_unwordsC _ (fun w hw => pyWordsC_sound text.data w (List.take_subset _ _ hw))]
  simp [nWords]

/-- Size bound on a truncated inclusion: it costs at most the remaining
budget, except that a single word may overflow to `oneWordEst f`. -/
theorem truncEst_le (f : ℚ) (text : String) (R : ℕ) (hR : 1 ≤ R) :
    estimate_tokens f (truncWords f text R) ≤ max R (oneWordEst f) := by
  set nw := nWords text with hnw
  set k := (max 1 (pyTrunc ((R : ℚ) / max 1 f))).toNat with hk
  have hcount : nWords (truncWords f text R) = min k nw := nWords_joinWords_take text k
  have hmin_nonneg : (0 : ℚ) ≤ (min k nw : ℕ) := by positivity
  rcases le_or_lt f 1 with hf | hf
  · -- f ≤ 1 : the truncation always fits in R
    have hmax1 : max 1 f = 1 := max_eq_left hf
    have hkR : k = R := by
      rw [hk, hmax1, div_one, pyTrunc_natCast]
      omega
    have hle : ((min k nw : ℕ) : ℚ) * f ≤ (R : ℚ) := by
      calc ((min k nw : ℕ) : ℚ) * f ≤ ((min k nw : ℕ) : ℚ) * 1 := by
            rcases le_or_lt f 0 with h0 | h0
            · nlinarith
            · exact mul_le_mul_of_nonneg_left hf hmin_nonneg
      _ = ((min k nw : ℕ) : ℚ) := mul_one _
      _ ≤ (R : ℚ) := by
            have : min k nw ≤ R := by omega
            exact_mod_cast this
    have htr : pyTrunc (((min k nw : ℕ) : ℚ) * f) ≤ (R : ℤ) := pyTrunc_le_of_le_nat hle
    have : estimate_tokens f (truncWords f text R) ≤ R := by
      unfold estimate_tokens
      rw [hcount]
      omega
    exact le_trans this (le_max_left _ _)
  · -- 1 < f
    have hmaxf : max 1 f = f := max_eq_right (le_of_lt hf)
    have hf0 : (0 : ℚ) < f := lt_trans one_pos hf
    rcases le_or_lt 1 (pyTrunc ((R : ℚ) / f)) with h1 | h1
    · -- at least one whole word fits: k·f ≤ R
      have hkval : (k : ℤ) = pyTrunc ((R : ℚ) / f) := by
        rw [hk, hmaxf]
        omega
      have hkq : (k : ℚ) ≤ (R : ℚ) / f := by
        have := pyTrunc_le_self (q := (R : ℚ) / f) (by positivity)
        rw [← hkval] at this
        exact_mod_cast this
      have hkf : (k : ℚ) * f ≤ (R : ℚ) := by
        rw [← le_div_iff₀ hf0]
        exact hkq
      have hle : ((min k nw : ℕ) : ℚ) * f ≤ (R : ℚ) := by
        calc ((min k nw : ℕ) : ℚ) * f ≤ (k : ℚ) * f := by
              have : ((min k nw : ℕ) : ℚ) ≤ (k : ℚ) := by exact_mod_cast Nat.min_le_left k nw
              nlinarith
        _ ≤ (R : ℚ) := hkf
      have htr := pyTrunc_le_of_le_nat hle
      have : estimate_tokens f (truncWords f text R) ≤ R := by
        unfold estimate_tokens
        rw [hcount]
        omega
      exact le_trans this (le_max_left _ _)
    · -- no whole word fits: k = 1, cost at most one word
      have hkval : k = 1 := by
        rw [hk, hmaxf]
        omega
      have hminle : ((min k nw : ℕ) : ℚ) ≤ 1 := by
        have : min k nw ≤ 1 := by omega
        exact_mod_cast this
      have hle : ((min k nw : ℕ) : ℚ) * f ≤ f := by nlinarith
      have htr : pyTrunc (((min k nw : ℕ) : ℚ) * f) ≤ pyTrunc f := pyTrunc_mono hle
      have : estimate_tokens f (truncWords f text R) ≤ oneWordEst f := by
        unfold estimate_tokens oneWordEst
        rw [hcount]
        omega
      exact le_trans this (le_max_right _ _)

/-- Invariant of the greedy fill: starting within budget, the total consumed
estimate exceeds the budget by at most `oneWordEst f - 1`. -/
theorem greedy_fill_sum (f : ℚ) (budget : ℕ) :
    ∀ (items : List ContextItem) (used : ℕ), used ≤ budget →
      used + sumEst (greedy_fill f budget items used) ≤ budget + (oneWordEst f - 1) := by
  intro items
  induction items with
  | nil => intro used hu; simpa [greedy_fill, sumEst] using Nat.le_add_right_of_le hu
  | cons it rest ih =>
    intro used hu
    by_cases hover : budget < used + estimate_tokens f it.text
    · by_cases hguard : (6 : ℚ)/10 ≤ it.score ∧ used < budget
      · -- truncated inclusion
        simp only [greedy_fill, if_pos hover, if_pos hguard, sumEst, List.map_cons,
          List.sum_cons]
        set selEst := estimate_tokens f (truncWords f it.text (budget - used)) with hsel
        have hW := one_le_oneWordEst f
        have hbound : selEst ≤ max (budget - used) (oneWordEst f) :=
          truncEst_le f it.text (budget - used) (by omega)
        by_cases hc : used + selEst ≤ budget
        · have := ih (used + selEst) hc
          unfold sumEst at this
          omega
        · have hdone : greedy_fill f budget rest (used + selEst) = [] :=
            greedy_fill_done f budget rest (used + selEst) (by omega)
          rw [hdone]
          simp only [List.map_nil, List.sum_nil]
          rcases Nat.le_total (budget - used) (oneWordEst f) with hm | hm
          · rw [Nat.max_eq_right hm] at hbound
            omega
          · rw [Nat.max_eq_left hm] at hbound
            omega
      · -- skipped item
        simp only [greedy_fill, if_pos hover, if_neg hguard]
        exact ih used hu
    · by_cases hbreak : budget ≤ used + estimate_tokens f it.text
      · simp only [greedy_fill, if_neg hover, if_pos hbreak, sumEst, List.map_cons,
          List.map_nil, List.sum_cons, List.sum_nil]
        omega
      · simp only [greedy_fill, if_neg hover, if_neg hbreak, sumEst, List.map_cons,
          List.sum_cons]
        have := ih (used + estimate_tokens f it.text) (by omega)
        unfold sumEst at this
        omega

/-- The scores of the filled output form a sublist of the scanned items'
scores (each output record carries the score of its source item, in scan
order). -/
theorem greedy_fill_scores (f : ℚ) (budget : ℕ) :
    ∀ (items : List ContextItem) (used : ℕ),
      ((greedy_fill f budget items used).map (·.score)).Sublist
        (items.map (·.score)) := by
  intro items
  induction items with
  | nil => intro used; simp [greedy_fill]
  | cons it rest ih =>
    intro used
    by_cases hover : budget < used + estimate_tokens f it.text
    · by_cases hguard : (6 : ℚ)/10 ≤ it.score ∧ used < budget
      · simp only [greedy_fill, if_pos hover, if_pos hguard, List.map_cons]
        exact (ih _).cons₂ _
      · simp only [greedy_fill, if_pos hover, if_neg hguard, List.map_cons]
        exact (ih _).cons _
    · by_cases hbreak : budget ≤ used + estimate_tokens f it.text
      · simp only [greedy_fill, if_neg hover, if_pos hbreak, List.map_cons]
        exact (List.nil_sublist _).cons₂ _
      · simp only [greedy_fill, if_neg hover, if_neg hbreak, List.map_cons]
        exact (ih _).cons₂ _

/-- Inversion of a successful `select_context` call. -/
theorem select_context_ok {pf ps now f query documents messages tools_outputs budget out}
    (h : select_context pf ps now f query documents messages tools_outputs budget
        = .ok out) :
    ∃ scored,
      score_items pf now query (poolItems ps documents messages tools_outputs) = .ok scored
      ∧ out = greedy_fill f budget (List.insertionSort keyGe scored) 0 := by
  unfold select_context at h
  cases hs : score_items pf now query (poolItems ps documents messages tools_outputs) with
  | error e => rw [hs] at h; exact absurd h (by simp)
  | ok scored =>
    rw [hs] at h
    refine ⟨scored, rfl, ?_⟩
    simpa using h.symm

/-! ### Claims about the selector

The witnesses and counterexamples below evaluate concrete calls inside the
kernel; the rational operations of Batteries are `@[irreducible]` by default,
so they are made semireducible locally. -/

section SelectorClaims

attribute [local semireducible] Rat.mul Rat.inv Rat.add Rat.sub Rat.ofScientific

/-- C3: for every `select_context` call, the sum of `est_tokens` over the
returned items exceeds `token_budget` by at most the single truncated-item
exception allowed by the ≥0.6-score rule — a truncation sized to the
remaining budget with an at-least-one-word floor, so the excess is bounded by
`oneWordEst f - 1` (the one-word estimate minus one); with the default factor
`avg_tokens_per_word = 1` the sum never exceeds `token_budget` at all. -/
theorem claim_C3_selector_budget (pf : String → Option ℚ) (ps : ℚ → String)
    (now f : ℚ) (query : String) (d m t : Option (List PoolEntry)) (budget : ℕ)
    (out : List SelectedItem)
    (h : select_context pf ps now f query d m t budget = .ok out) :
    sumEst out ≤ budget + (oneWordEst f - 1) ∧ (f = 1 → sumEst out ≤ budget) := by
  obtain ⟨scored, hs, hout⟩ := select_context_ok h
  subst hout
  have h1 := greedy_fill_sum f budget (List.insertionSort keyGe scored) 0 (Nat.zero_le _)
  refine ⟨by omega, ?_⟩
  rintro rfl
  have hW : oneWordEst 1 = 1 := by
    unfold oneWordEst
    rw [show ((1 : ℚ)) = ((1 : ℤ) : ℚ) by norm_num, pyTrunc_intCast]
    rfl
  omega

/-- Witness for C3 at a concrete successful call. -/
theorem claim_C3_selector_budget_witness :
    select_context (fun _ => none) (fun _ => "") 0 1 "w" (some [.raw "a b"]) none none 5
      = .ok [⟨"document", "a b", [], 0, 2⟩]
    ∧ (sumEst [⟨"document", "a b", [], 0, 2⟩] ≤ 5 + (oneWordEst 1 - 1)
        ∧ ((1 : ℚ) = 1 → sumEst [⟨"document", "a b", [], 0, 2⟩] ≤ 5)) :=
  ⟨by decide, claim_C3_selector_budget (fun _ => none) (fun _ => "") 0 1 "w"
    (some [.raw "a b"]) none none 5 [⟨"document", "a b", [], 0, 2⟩] (by decide)⟩

/-- C10: the list returned by `select_context` is ordered by non-increasing
score, even when smaller low-scoring items are admitted after a larger
higher-scoring item was skipped. -/
theorem claim_C10_selector_scores_nonincreasing (pf : String → Option ℚ)
    (ps : ℚ → String) (now f : ℚ) (query : String) (d m t : Option (List PoolEntry))
    (budget : ℕ) (out : List SelectedItem)
    (h : select_context pf ps now f query d m t budget = .ok out) :
    out.Pairwise (fun a b => b.score ≤ a.score) := by
  obtain ⟨scored, hs, hout⟩ := select_context_ok h
  subst hout
  have hsorted : (List.insertionSort keyGe scored).Pairwise keyGe :=
    List.sorted_insertionSort keyGe scored
  have hps : ((List.insertionSort keyGe scored).map (·.score)).Pairwise
      (fun a b => b ≤ a) := by
    rw [List.pairwise_map]
    refine hsorted.imp ?_
    intro a b hab
    rcases hab with h1 | ⟨h1, _⟩
    · exact le_of_lt h1
    · exact le_of_eq h1.symm
  have hsub := greedy_fill_scores f budget (List.insertionSort keyGe scored) 0
  have hout2 := List.Pairwise.sublist hsub hps
  rw [List.pairwise_map] at hout2
  exact hout2

/-- Witness for C10 at a concrete successful call. -/
theorem claim_C10_selector_scores_nonincreasing_witness :
    select_context (fun _ => none) (fun _ => "") 0 1 "q" (some [.raw "q", .raw "zz"])
        none none 10
      = .ok [⟨"document", "q", [], 7/10, 1⟩, ⟨"document", "zz", [], 0, 1⟩]
    ∧ ([⟨"document", "q", [], 7/10, 1⟩, ⟨"document", "zz", [], 0, 1⟩] :
        List SelectedItem).Pairwise (fun a b => b.score ≤ a.score) :=
  ⟨by decide, claim_C10_selector_scores_nonincreasing (fun _ => none) (fun _ => "") 0 1 "q"
    (some [.raw "q", .raw "zz"]) none none 10
    [⟨"document", "q", [], 7/10, 1⟩, ⟨"document", "zz", [], 0, 1⟩] (by decide)⟩

/-- C8 counterexample: with equal scores (both 0), the code orders
`"a b c"` (5 characters, estimated 3 tokens) before `"abcdefgh"`
(8 characters, estimated 1 token): the tie is broken by *character* length
of the text, not by estimated token length as the claim states, so the item
with the smaller token estimate comes second. -/
theorem claim_C8_counterexample :
    select_context (fun _ => none) (fun _ => "") 0 1 ""
        (some [.raw "a b c", .raw "abcdefgh"]) none none 100
      = .ok [⟨"document", "a b c", [], 0, 3⟩, ⟨"document", "abcdefgh", [], 0, 1⟩]
    ∧ estimate_tokens 1 "abcdefgh" < estimate_tokens 1 "a b c" :=
  ⟨by decide, by decide⟩

/-- C8 (amended): the sort is descending by
`(score, −character_length_of_text)` — among equal-score items the one with
the shorter text (in characters) is scanned first (`keyGe`), and the returned
list is the greedy fill of that order, its scores forming a sublist of it. -/
theorem claim_C8_amended_tiebreak_by_char_length (pf : String → Option ℚ)
    (ps : ℚ → String) (now f : ℚ) (query : String) (d m t : Option (List PoolEntry))
    (budget : ℕ) (out : List SelectedItem)
    (h : select_context pf ps now f query d m t budget = .ok out) :
    ∃ sorted : List ContextItem,
      sorted.Pairwise keyGe
      ∧ out = greedy_fill f budget sorted 0
      ∧ (out.map (·.score)).Sublist (sorted.map (·.score)) := by
  obtain ⟨scored, hs, hout⟩ := select_context_ok h
  exact ⟨List.insertionSort keyGe scored, List.sorted_insertionSort keyGe scored,
    hout, hout ▸ greedy_fill_scores f budget _ 0⟩

/-- Witness for the amended C8 at a concrete successful call. -/
theorem claim_C8_amended_witness :
    select_context (fun _ => none) (fun _ => "") 0 1 ""
        (some [.raw "a b c", .raw "abcdefgh"]) none none 100
      = .ok [⟨"document", "a b c", [], 0, 3⟩, ⟨"document", "abcdefgh", [], 0, 1⟩]
    ∧ ∃ sorted : List ContextItem,
        sorted.Pairwise keyGe
        ∧ ([⟨"document", "a b c", [], 0, 3⟩, ⟨"document", "abcdefgh", [], 0, 1⟩] :
            List SelectedItem) = greedy_fill 1 100 sorted 0
        ∧ (([⟨"document", "a b c", [], 0, 3⟩, ⟨"document", "abcdefgh", [], 0, 1⟩] :
            List SelectedItem).map (·.score)).Sublist (sorted.map (·.score)) :=
  ⟨by decide, claim_C8_amended_tiebreak_by_char_length (fun _ => none) (fun _ => "") 0 1 ""
    (some [.raw "a b c", .raw "abcdefgh"]) none none 100
    [⟨"document", "a b c", [], 0, 3⟩, ⟨"document", "abcdefgh", [], 0, 1⟩] (by decide)⟩

/-- C9 counterexample: with `avg_tokens_per_word = 1/2` and budget 3, both
documents score 0.7 ≥ 0.6 and estimate to 5 tokens (too large), so the first
is included *truncated* — and then the loop `continue`s and appends a second
(also truncated) item after it, contradicting "scanning stops and no further
item is appended". -/
theorem claim_C9_counterexample :
    select_context (fun _ => none) (fun _ => "") 0 (1/2) "alpha"
        (some [.raw "alpha w1 w2 w3 w4 w5 w6 w7 w8 w9",
               .raw "alpha v1 v2 v3 v4 v5 v6 v7 v8 v9"]) none none 3
      = .ok [⟨"document", "alpha w1 w2", [], 7/10, 1⟩,
             ⟨"document", "alpha v1", [], 7/10, 1⟩]
    ∧ estimate_tokens (1/2) "alpha w1 w2 w3 w4 w5 w6 w7 w8 w9" = 5 :=
  ⟨by decide, by decide⟩

/-- C9 (amended): the loop body only `continue`s after a truncated inclusion,
but with the default factor `avg_tokens_per_word = 1` the truncated inclusion
consumes exactly the remaining budget, so no further item — full or truncated
— is appended after it: the truncated item is the last element returned. -/
theorem claim_C9_amended_truncation_last_at_factor_one (budget used : ℕ)
    (it : ContextItem) (rest : List ContextItem) (h1 : used < budget)
    (h2 : budget < used + estimate_tokens 1 it.text) (h3 : (6 : ℚ)/10 ≤ it.score) :
    greedy_fill 1 budget (it :: rest) used
      = [⟨it.source, truncWords 1 it.text (budget - used), it.metadata, it.score,
          budget - used⟩] := by
  have hfull : estimate_tokens 1 it.text = max 1 (nWords it.text) := by
    unfold estimate_tokens
    rw [mul_one, pyTrunc_natCast]
    omega
  have hnw : budget - used < nWords it.text := by
    rcases Nat.eq_zero_or_pos (nWords it.text) with h0 | h0
    · rw [hfull, h0] at h2; omega
    · rw [hfull] at h2; omega
  have hsel : estimate_tokens 1 (truncWords 1 it.text (budget - used)) = budget - used := by
    have hk : (max 1 (pyTrunc (((budget - used : ℕ) : ℚ) / max 1 (1 : ℚ)))).toNat
        = budget - used := by
      rw [max_self, div_one, pyTrunc_natCast]
      omega
    unfold truncWords estimate_tokens
    rw [nWords_joinWords_take, hk, Nat.min_eq_left (le_of_lt hnw), mul_one, pyTrunc_natCast]
    omega
  have hguard : (6 : ℚ)/10 ≤ it.score ∧ used < budget := ⟨h3, h1⟩
  simp only [greedy_fill, if_pos h2, if_pos hguard]
  rw [hsel, show used + (budget - used) = budget by omega,
    greedy_fill_done 1 budget rest budget (le_refl budget)]

/-- Witness for the amended C9 at a concrete input. -/
theorem claim_C9_amended_witness :
    ((1 : ℕ) < 2 ∧ 2 < 1 + estimate_tokens 1 "a b c" ∧ (6 : ℚ)/10 ≤ 1)
    ∧ greedy_fill 1 2 [⟨"document", "a b c", [], 1⟩, ⟨"message", "x", [], 1⟩] 1
      = [⟨"document", "a", [], 1, 1⟩] :=
  ⟨⟨by decide, by decide, by norm_num⟩,
    (claim_C9_amended_truncation_last_at_factor_one 2 1 ⟨"document", "a b c", [], 1⟩
      [⟨"message", "x", [], 1⟩] (by decide) (by decide) (by norm_num)).trans (by decide)⟩

end SelectorClaims

/-! ### Context-budget enforcer (`src/mini_agent/llm/base.py`)

Collaborators live outside the provided sources and are abstract parameters:
`ct` is the token count of the `cl100k_base` encoding of a string
(`len(encoding.encode(s, disallowed_special=()))`), `tr` is
`truncate_text_by_tokens` from `mini_agent.tools.file_tools`, and `stc` is
the serialization `json.dumps([tc.dict() for tc in tool_calls])` (or its
`str` fallback). -/

/-- Modelled from the spec: `Message.content` (the `mini_agent.schema` module
is not among the provided sources) — either plain text or a structured
payload; a structured payload is carried together with its canonical string
serialization (`json.dumps(...)`, falling back to `str(...)`), which is the
only way the enforcer ever observes it. -/
inductive Content where
  | str (s : String)
  | obj (serialized : String)
deriving DecidableEq

/-- Modelled from the spec: `Message` from `mini_agent.schema` — `role` in
{system, user, assistant, tool}, `content`, optional `thinking`, optional
`tool_calls`; the latter is modelled by the list of serialized call records,
`[]` standing for both `None` and the empty list (both falsy). -/
structure Message where
  role : String
  content : Content
  thinking : Option String := none
  tool_calls : List String := []
deriving DecidableEq

instance : Inhabited Message := ⟨⟨"", .str "", none, []⟩⟩

/-- The string used for a message content when estimating tokens. -/
def contentString : Content → String
  | .str s => s
  | .obj s => s

/-- Python truthiness of the `thinking` field (`None` and `""` are falsy). -/
def truthyThinking (m : Message) : Bool :=
  match m.thinking with
  | none => false
  | some t => !(t == "")

/-- The parts joined with `"\n"` by `_estimate_tokens_for_message`. -/
def msgParts (stc : List String → String) (m : Message) : List String :=
  [m.role, contentString m.content]
    ++ (match m.thinking with
        | some t => if t = "" then [] else [t]
        | none => [])
    ++ (if m.tool_calls = [] then [] else [stc m.tool_calls])

/-- `LLMClientBase._estimate_tokens_for_message`. -/
def estimate_tokens_for_message (ct : String → ℕ) (stc : List String → String)
    (m : Message) : ℕ :=
  ct (String.intercalate "\n" (msgParts stc m))

/-- `LLMClientBase._estimate_tokens_for_messages` (the per-message loop sums
exactly the single-message estimates). -/
def estimate_tokens_for_messages (ct : String → ℕ) (stc : List String → String)
    (msgs : List Message) : ℕ :=
  (msgs.map (estimate_tokens_for_message ct stc)).sum

/-- Python `a or d` for an optional integer (`None` and `0` are falsy). -/
def pyOrNat (a : Option ℕ) (d : ℕ) : ℕ :=
  match a with
  | some n => if n = 0 then d else n
  | none => d

/-- Stage 1 on one message: contents that are plain strings and estimate
above `per_message_target` are replaced by their token-bounded truncation. -/
def stage1Msg (ct : String → ℕ) (tr : String → ℕ → String) (pmt : ℕ)
    (m : Message) : Message :=
  match m.content with
  | .str s => if pmt < ct s then { m with content := .str (tr s pmt) } else m
  | .obj _ => m

/-- Index-tagged view of a message list.  Python's `id()`-based bookkeeping
over the fresh copies `[m.copy() for m in messages]` is modelled by list
positions, which are pairwise distinct exactly like the ids of the fresh
copies. -/
def zi (n : ℕ) : List α → List (ℕ × α)
  | [] => []
  | a :: l => (n, a) :: zi (n + 1) l

/-- The system messages of the indexed list (`system_msgs`). -/
def sysPairs (msgs1 : List Message) : List (ℕ × Message) :=
  (zi 0 msgs1).filter (fun p => p.2.role == "system")

/-- The user messages of the indexed list (`user_msgs`). -/
def userPairs (msgs1 : List Message) : List (ℕ × Message) :=
  (zi 0 msgs1).filter (fun p => p.2.role == "user")

/-- The assistant messages carrying a truthy `thinking` trace
(`planning_msgs`). -/
def planningPairs (msgs1 : List Message) : List (ℕ × Message) :=
  (zi 0 msgs1).filter (fun p => p.2.role == "assistant" && truthyThinking p.2)

/-- `preserved` after the system / first-user / planning extends: all system
messages, the first user message (if any), the last 3 planning messages. -/
def corePairs (msgs1 : List Message) : List (ℕ × Message) :=
  sysPairs msgs1 ++ (userPairs msgs1).take 1
    ++ (planningPairs msgs1).drop ((planningPairs msgs1).length - 3)

/-- `preserved` after also appending the last user message when not already
present (by identity). -/
def coreLastUser (msgs1 : List Message) : List (ℕ × Message) :=
  match (userPairs msgs1).getLast? with
  | none => corePairs msgs1
  | some lu =>
    if (corePairs msgs1).any (fun q => q.1 == lu.1) then corePairs msgs1
    else corePairs msgs1 ++ [lu]

/-- The preserved set of Stage 2 in build order: `coreLastUser` followed by
the last 4 messages of the full sequence when not already present. -/
def preservedPairs (msgs1 : List Message) : List (ℕ × Message) :=
  ((zi 0 msgs1).drop ((zi 0 msgs1).length - 4)).foldl
    (fun acc p => if acc.any (fun q => q.1 == p.1) then acc else acc ++ [p])
    (coreLastUser msgs1)

/-- The prunable messages: everything not preserved, in chronological order. -/
def prunablePairs (msgs1 : List Message) : List (ℕ × Message) :=
  (zi 0 msgs1).filter
    (fun p => !(preservedPairs msgs1).any (fun q => q.1 == p.1))

/-- The pruning loop: remove the oldest prunable message while the running
total exceeds `target`, stopping at the iteration cap.  Returns
(removed, kept), each with the precomputed token counts. -/
def pruneLoop (target : ℕ) (presTok : ℤ) (cap : ℕ) :
    List ((ℕ × Message) × ℕ) → ℤ → ℕ →
      List ((ℕ × Message) × ℕ) × List ((ℕ × Message) × ℕ)
  | [], _, _ => ([], [])
  | x :: rest, prunTok, iters =>
    if presTok + prunTok ≤ (target : ℤ) then ([], x :: rest)
    else if cap ≤ iters then ([], x :: rest)
    else
      let r := pruneLoop target presTok cap rest (prunTok - (x.2 : ℤ)) (iters + 1)
      (x :: r.1, r.2)

/-- Stage 2 pruning outcome: the removed prefix of the prunable list and the
kept remainder, using the precomputed token-count table and the iteration cap
`max(1000, 2·len(prunable))`. -/
def removedAndKept (ct : String → ℕ) (stc : List String → String) (target : ℕ)
    (msgs1 : List Message) :
    List ((ℕ × Message) × ℕ) × List ((ℕ × Message) × ℕ) :=
  let pres := preservedPairs msgs1
  let prun := prunablePairs msgs1
  let presTok : ℤ := (pres.map (fun p => (estimate_tokens_for_message ct stc p.2 : ℤ))).sum
  let wp := prun.map (fun p => (p, estimate_tokens_for_message ct stc p.2))
  let prunTok : ℤ := (wp.map (fun q => (q.2 : ℤ))).sum
  pruneLoop target presTok (max 1000 (2 * prun.length)) wp prunTok 0

/-- The surviving messages (preserved ∪ kept prunable) reassembled in the
original chronological order. -/
def survivorsOf (ct : String → ℕ) (stc : List String → String) (target : ℕ)
    (msgs1 : List Message) : List Message :=
  let keptIdx := ((removedAndKept ct stc target msgs1).2).map (fun q => q.1.1)
  let presIdx := (preservedPairs msgs1).map (fun p => p.1)
  ((zi 0 msgs1).filter
    (fun p => presIdx.any (fun i => i == p.1) || keptIdx.any (fun i => i == p.1))).map
    (fun p => p.2)

/-- The messages removed by pruning, oldest first. -/
def removedMsgsOf (ct : String → ℕ) (stc : List String → String) (target : ℕ)
    (msgs1 : List Message) : List Message :=
  ((removedAndKept ct stc target msgs1).1).map (fun q => q.1.2)

/-- The 400-character excerpt of a removed message used in the summary. -/
def excerptOf (m : Message) : String :=
  "[" ++ m.role ++ "] " ++
    (match m.content with
     | .str s => s.trim.take 400
     | .obj s => s.take 400)

/-- The synthesized system notice summarizing the removed messages. -/
def noticeOf (tr : String → ℕ → String) (pmt : ℕ) (removed : List Message) : Message :=
  let summary0 := "\n\n... [Earlier conversation truncated to fit model context window] ...\n\n"
      ++ String.intercalate "\n---\n" (removed.map excerptOf)
  ⟨"system", .str ("Conversation summary (truncated):\n" ++ tr summary0 pmt), none, []⟩

/-- The insert position loop: `insert_index = i + 1` for every system message
found at index `i` of the reassembled list, starting from 0. -/
def insPos (compressed : List Message) : ℕ :=
  (zi 0 compressed).foldl (fun acc p => if p.2.role == "system" then p.1 + 1 else acc) 0

/-- Stage 2 of `enforce_context_limit`: phase-aware pruning plus summary
notice.  When the input has no user message, the recency loop reads the
never-assigned local `preserved_ids` and the call raises `NameError`. -/
def stage2 (ct : String → ℕ) (tr : String → ℕ → String) (stc : List String → String)
    (target pmt : ℕ) (msgs1 : List Message) : Except String (List Message) :=
  if (zi 0 msgs1).filter (fun p => p.2.role == "user") = [] then
    .error "NameError: name 'preserved_ids' is not defined"
  else
    let comp := survivorsOf ct stc target msgs1
    let removed := removedMsgsOf ct stc target msgs1
    if removed = [] then .ok comp
    else if msgs1.any (fun m => m.role == "system") then
      .ok (comp.insertIdx (insPos comp) (noticeOf tr pmt removed))
    else .ok (comp.insertIdx 0 (noticeOf tr pmt removed))

/-- The effective compression target:
`max(1024, limit - margin)` with `limit = model_context_limit or
self.model_context_limit or 65536` and `margin = safety_margin if not None
else self.context_safety_margin`. -/
def targetOf (instLimit : Option ℕ) (instMargin : ℕ)
    (model_context_limit safety_margin : Option ℕ) : ℕ :=
  max 1024 (pyOrNat model_context_limit (pyOrNat instLimit 65536)
    - safety_margin.getD instMargin)

/-- `per_message_target = min(8192, max(512, target // 8))`. -/
def pmtOf (target : ℕ) : ℕ := min 8192 (max 512 (target / 8))

/-- `LLMClientBase.enforce_context_limit`.  `instLimit`/`instMargin` are the
instance defaults (`model_context_limit`, `context_safety_margin`); the two
`Option` arguments are the keyword arguments.  The copies
`[m.copy() for m in messages]` are value-equal to the originals, so the
copied list is `messages` itself at the value level (the heap-level frame
property is treated separately by `enforceStore`).  The debug statement
`print(msgs[1])` at `base.py:136` raises `IndexError` whenever fewer than two
messages are passed, before any other work happens. -/
def enforce_context_limit (ct : String → ℕ) (tr : String → ℕ → String)
    (stc : List String → String) (instLimit : Option ℕ) (instMargin : ℕ)
    (messages : List Message) (model_context_limit safety_margin : Option ℕ) :
    Except String (List Message) :=
  let target := targetOf instLimit instMargin model_context_limit safety_margin
  if messages.length < 2 then .error "IndexError: list index out of range"
  else if estimate_tokens_for_messages ct stc messages ≤ target then .ok messages
  else
    let pmt := pmtOf target
    let msgs1 := messages.map (stage1Msg ct tr pmt)
    if estimate_tokens_for_messages ct stc msgs1 ≤ target then .ok msgs1
    else stage2 ct tr stc target pmt msgs1

/-! ### Enforcer lemmas -/

theorem zi_map_snd (n : ℕ) (l : List α) : (zi n l).map (fun p => p.2) = l := by
  induction l generalizing n with
  | nil => rfl
  | cons a l ih => simp [zi, ih]

theorem zi_length (n : ℕ) (l : List α) : (zi n l).length = l.length := by
  induction l generalizing n with
  | nil => rfl
  | cons a l ih => simp [zi, ih]

theorem mem_zi {p : ℕ × α} : ∀ {n : ℕ} {l : List α},
    p ∈ zi n l ↔ ∃ j, p.1 = n + j ∧ l[j]? = some p.2 := by
  intro n l
  induction l generalizing n with
  | nil => simp [zi]
  | cons a l ih =>
    simp only [zi, List.mem_cons, ih]
    constructor
    · rintro (rfl | ⟨j, hj, hget⟩)
      · exact ⟨0, by simp⟩
      · exact ⟨j + 1, by omega, by simpa using hget⟩
    · rintro ⟨j, hj, hget⟩
      cases j with
      | zero =>
        left
        simp only [List.getElem?_cons_zero, Option.some.injEq] at hget
        have : p.1 = n := by omega
        exact Prod.ext this hget.symm
      | succ j =>
        right
        exact ⟨j, by omega, by simpa using hget⟩

theorem zi_append (n : ℕ) (l1 l2 : List α) :
    zi n (l1 ++ l2) = zi n l1 ++ zi (n + l1.length) l2 := by
  induction l1 generalizing n with
  | nil => simp [zi]
  | cons a l ih =>
    show (n, a) :: zi (n + 1) (l ++ l2)
      = (n, a) :: (zi (n + 1) l ++ zi (n + (l.length + 1)) l2)
    rw [ih (n + 1), show n + 1 + l.length = n + (l.length + 1) by omega]

theorem zi_drop (n k : ℕ) (l : List α) : (zi n l).drop k = zi (n + k) (l.drop k) := by
  induction l generalizing n k with
  | nil => simp [zi]
  | cons a l ih =>
    cases k with
    | zero => simp
    | succ k =>
      simp only [zi, List.drop_succ_cons, ih (n + 1) k]
      rw [show n + 1 + k = n + (k + 1) by omega]

theorem zi_pairwise_fst (n : ℕ) (l : List α) :
    (zi n l).Pairwise (fun p q => p.1 < q.1) := by
  induction l generalizing n with
  | nil => exact List.Pairwise.nil
  | cons a l ih =>
    refine List.Pairwise.cons ?_ (ih (n + 1))
    intro q hq
    rcases mem_zi.mp hq with ⟨j, hj, -⟩
    simp only []
    omega

theorem stage1Msg_role (ct : String → ℕ) (tr : String → ℕ → String) (pmt : ℕ)
    (m : Message) : (stage1Msg ct tr pmt m).role = m.role := by
  unfold stage1Msg
  split
  · split <;> rfl
  · rfl

theorem survivors_sublist (ct : String → ℕ) (stc : List String → String)
    (target : ℕ) (msgs1 : List Message) :
    (survivorsOf ct stc target msgs1).Sublist msgs1 := by
  have h : ∀ P : ℕ × Message → Bool,
      (((zi 0 msgs1).filter P).map (fun p => p.2)).Sublist msgs1 := by
    intro P
    have h1 := (List.filter_sublist (p := P) (zi 0 msgs1)).map (fun p : ℕ × Message => p.2)
    rwa [zi_map_snd] at h1
  exact h _

/-- The dedup-append fold keeps everything already in the accumulator. -/
theorem foldl_dedup_mem_acc {x : ℕ × Message} :
    ∀ (l : List (ℕ × Message)) (acc : List (ℕ × Message)), x ∈ acc →
      x ∈ l.foldl
        (fun acc p => if acc.any (fun q => q.1 == p.1) then acc else acc ++ [p]) acc := by
  intro l
  induction l with
  | nil => intro acc hx; exact hx
  | cons p l ih =>
    intro acc hx
    rw [List.foldl_cons]
    by_cases hc : acc.any (fun q => q.1 == p.1) = true
    · rw [if_pos hc]
      exact ih acc hx
    · rw [if_neg hc]
      exact ih (acc ++ [p]) (List.mem_append_left _ hx)

/-- The dedup-append fold records the index of every element of the list. -/
theorem foldl_dedup_mem_fst {p : ℕ × Message} :
    ∀ (l : List (ℕ × Message)) (acc : List (ℕ × Message)), p ∈ l →
      p.1 ∈ (l.foldl
        (fun acc p => if acc.any (fun q => q.1 == p.1) then acc else acc ++ [p]) acc).map
          (fun q => q.1) := by
  intro l
  induction l with
  | nil => intro acc hp; simp at hp
  | cons x l ih =>
    intro acc hp
    rw [List.foldl_cons]
    rcases List.mem_cons.mp hp with rfl | hp
    · by_cases hc : acc.any (fun q => q.1 == p.1) = true
      · rw [if_pos hc]
        rcases List.any_eq_true.mp hc with ⟨q, hq, hbeq⟩
        have hq1 : q.1 = p.1 := by simpa using hbeq
        have := foldl_dedup_mem_acc l acc hq
        exact hq1 ▸ List.mem_map.mpr ⟨q, this, rfl⟩
      · rw [if_neg hc]
        have : p ∈ acc ++ [p] := List.mem_append_right _ (by simp)
        exact List.mem_map.mpr ⟨p, foldl_dedup_mem_acc l _ this, rfl⟩
    · by_cases hc : acc.any (fun q => q.1 == x.1) = true
      · rw [if_pos hc]; exact ih acc hp
      · rw [if_neg hc]; exact ih _ hp

/-- Everything in `coreLastUser` survives into `preservedPairs`. -/
theorem mem_preserved_of_core {msgs1 : List Message} {x : ℕ × Message}
    (hx : x ∈ coreLastUser msgs1) : x ∈ preservedPairs msgs1 :=
  foldl_dedup_mem_acc _ _ hx

/-- System messages are preserved. -/
theorem preserved_of_system {msgs1 : List Message} {i : ℕ} {m : Message}
    (hm : (i, m) ∈ zi 0 msgs1) (hrole : m.role = "system") :
    i ∈ (preservedPairs msgs1).map (fun p => p.1) := by
  have hsys : (i, m) ∈ sysPairs msgs1 :=
    List.mem_filter.mpr ⟨hm, by simp [hrole]⟩
  have hcore : (i, m) ∈ corePairs msgs1 := by
    unfold corePairs
    exact List.mem_append_left _ (List.mem_append_left _ hsys)
  have hcl : (i, m) ∈ coreLastUser msgs1 := by
    unfold coreLastUser
    split
    · exact hcore
    · split
      · exact hcore
      · exact List.mem_append_left _ hcore
  exact List.mem_map.mpr ⟨(i, m), mem_preserved_of_core hcl, rfl⟩

/-- The first matching element of a filtered indexed list. -/
theorem zi_filter_first (P : α → Bool) :
    ∀ (l : List α) (n i : ℕ) (a : α), l[i]? = some a → P a = true →
      (∀ j, j < i → ∀ b, l[j]? = some b → P b = false) →
      ((zi n l).filter (fun p => P p.2)).head? = some (n + i, a) := by
  intro l
  induction l with
  | nil => intro n i a h _ _; simp at h
  | cons c l ih =>
    intro n i a hget hP hbefore
    cases i with
    | zero =>
      simp only [List.getElem?_cons_zero, Option.some.injEq] at hget
      show (((n, c) :: zi (n + 1) l).filter (fun p => P p.2)).head? = some (n + 0, a)
      rw [List.filter_cons]
      simp [hP, hget]
    | succ i =>
      have hc : P c = false := hbefore 0 (by omega) c (by simp)
      show (((n, c) :: zi (n + 1) l).filter (fun p => P p.2)).head? = some (n + (i + 1), a)
      rw [List.filter_cons]
      simp only [hc, Bool.false_eq_true, if_false]
      have := ih (n + 1) i a (by simpa using hget) hP
        (fun j hj b hb => hbefore (j + 1) (by omega) b (by simpa using hb))
      rw [this, show n + 1 + i = n + (i + 1) by omega]

/-- The first user message is preserved. -/
theorem preserved_of_first_user {msgs1 : List Message} {i : ℕ} {m : Message}
    (hget : msgs1[i]? = some m) (hrole : m.role = "user")
    (hfirst : ∀ j, j < i → ∀ m', msgs1[j]? = some m' → m'.role ≠ "user") :
    i ∈ (preservedPairs msgs1).map (fun p => p.1) := by
  have hh := zi_filter_first (fun x : Message => x.role == "user") msgs1 0 i m hget
    (by simp [hrole]) (fun j hj b hb => by simp [hfirst j hj b hb])
  have hhead : (userPairs msgs1).head? = some (i, m) := by
    unfold userPairs
    simpa using hh
  have htake : (userPairs msgs1).take 1 = [(i, m)] := by
    cases hu : userPairs msgs1 with
    | nil => rw [hu] at hhead; simp at hhead
    | cons x xs =>
      rw [hu] at hhead
      simp only [List.head?_cons, Option.some.injEq] at hhead
      simp [hhead]
  have hcore : (i, m) ∈ corePairs msgs1 := by
    unfold corePairs
    refine List.mem_append_left _ (List.mem_append_right _ ?_)
    rw [htake]
    simp
  have hcl : (i, m) ∈ coreLastUser msgs1 := by
    unfold coreLastUser
    split
    · exact hcore
    · split
      · exact hcore
      · exact List.mem_append_left _ hcore
  exact List.mem_map.mpr ⟨(i, m), mem_preserved_of_core hcl, rfl⟩

/-- The last four messages are preserved. -/
theorem preserved_of_recent {msgs1 : List Message} {i : ℕ} {m : Message}
    (hget : msgs1[i]? = some m) (hrecent : msgs1.length ≤ i + 4) :
    i ∈ (preservedPairs msgs1).map (fun p => p.1) := by
  have hmem : (i, m) ∈ (zi 0 msgs1).drop ((zi 0 msgs1).length - 4) := by
    rw [zi_drop, zi_length]
    refine mem_zi.mpr ⟨i - (msgs1.length - 4), ?_, ?_⟩
    · have hi : i < msgs1.length := by
        rcases List.getElem?_eq_some_iff.mp hget with ⟨h, -⟩
        exact h
      omega
    · rw [List.getElem?_drop]
      rw [show msgs1.length - 4 + (i - (msgs1.length - 4)) = i by
        rcases List.getElem?_eq_some_iff.mp hget with ⟨h, -⟩
        omega]
      exact hget
  exact foldl_dedup_mem_fst _ _ hmem

/-- A preserved index appears among the survivors. -/
theorem mem_survivors_of_preserved (ct : String → ℕ) (stc : List String → String)
    (target : ℕ) {msgs1 : List Message} {i : ℕ} {m : Message}
    (hm : (i, m) ∈ zi 0 msgs1)
    (hp : i ∈ (preservedPairs msgs1).map (fun p => p.1)) :
    m ∈ survivorsOf ct stc target msgs1 := by
  unfold survivorsOf
  have hfil : (i, m) ∈ (zi 0 msgs1).filter
      (fun p => ((preservedPairs msgs1).map (fun p => p.1)).any (fun j => j == p.1)
        || (((removedAndKept ct stc target msgs1).2).map (fun q => q.1.1)).any
            (fun j => j == p.1)) := by
    refine List.mem_filter.mpr ⟨hm, ?_⟩
    have : ((preservedPairs msgs1).map (fun p => p.1)).any (fun j => j == i) = true :=
      List.any_eq_true.mpr ⟨i, hp, by simp⟩
    simp [this]
  exact List.mem_map.mpr ⟨(i, m), hfil, rfl⟩

/-- Case analysis of a successful `enforce_context_limit` call. -/
theorem enforce_ok_cases {ct : String → ℕ} {tr : String → ℕ → String}
    {stc : List String → String} {iL : Option ℕ} {iM : ℕ} {msgs : List Message}
    {mcl sm : Option ℕ} {out : List Message}
    (h : enforce_context_limit ct tr stc iL iM msgs mcl sm = .ok out) :
    2 ≤ msgs.length ∧
    ((estimate_tokens_for_messages ct stc msgs ≤ targetOf iL iM mcl sm ∧ out = msgs)
     ∨ (¬ estimate_tokens_for_messages ct stc msgs ≤ targetOf iL iM mcl sm
        ∧ estimate_tokens_for_messages ct stc
            (msgs.map (stage1Msg ct tr (pmtOf (targetOf iL iM mcl sm))))
            ≤ targetOf iL iM mcl sm
        ∧ out = msgs.map (stage1Msg ct tr (pmtOf (targetOf iL iM mcl sm))))
     ∨ (¬ estimate_tokens_for_messages ct stc msgs ≤ targetOf iL iM mcl sm
        ∧ ¬ estimate_tokens_for_messages ct stc
            (msgs.map (stage1Msg ct tr (pmtOf (targetOf iL iM mcl sm))))
            ≤ targetOf iL iM mcl sm
        ∧ stage2 ct tr stc (targetOf iL iM mcl sm) (pmtOf (targetOf iL iM mcl sm))
            (msgs.map (stage1Msg ct tr (pmtOf (targetOf iL iM mcl sm)))) = .ok out)) := by
  simp only [enforce_context_limit] at h
  by_cases h2 : msgs.length < 2
  · rw [if_pos h2] at h
    exact absurd h (by simp)
  · rw [if_neg h2] at h
    refine ⟨by omega, ?_⟩
    by_cases hfast : estimate_tokens_for_messages ct stc msgs ≤ targetOf iL iM mcl sm
    · rw [if_pos hfast] at h
      exact Or.inl ⟨hfast, (Except.ok.inj h).symm⟩
    · rw [if_neg hfast] at h
      by_cases hs1 : estimate_tokens_for_messages ct stc
          (msgs.map (stage1Msg ct tr (pmtOf (targetOf iL iM mcl sm))))
          ≤ targetOf iL iM mcl sm
      · rw [if_pos hs1] at h
        exact Or.inr (Or.inl ⟨hfast, hs1, (Except.ok.inj h).symm⟩)
      · rw [if_neg hs1] at h
        exact Or.inr (Or.inr ⟨hfast, hs1, h⟩)

/-- Case analysis of a successful `stage2` call. -/
theorem stage2_ok {ct : String → ℕ} {tr : String → ℕ → String}
    {stc : List String → String} {target pmt : ℕ} {msgs1 out : List Message}
    (h : stage2 ct tr stc target pmt msgs1 = .ok out) :
    ((zi 0 msgs1).filter (fun p => p.2.role == "user") ≠ [])
    ∧ ((removedMsgsOf ct stc target msgs1 = [] ∧ out = survivorsOf ct stc target msgs1)
       ∨ (removedMsgsOf ct stc target msgs1 ≠ []
          ∧ ((msgs1.any (fun m => m.role == "system") = true
              ∧ out = (survivorsOf ct stc target msgs1).insertIdx
                  (insPos (survivorsOf ct stc target msgs1))
                  (noticeOf tr pmt (removedMsgsOf ct stc target msgs1)))
             ∨ (msgs1.any (fun m => m.role == "system") = false
                ∧ out = (survivorsOf ct stc target msgs1).insertIdx 0
                    (noticeOf tr pmt (removedMsgsOf ct stc target msgs1)))))) := by
  simp only [stage2] at h
  by_cases hu : (zi 0 msgs1).filter (fun p => p.2.role == "user") = []
  · rw [if_pos hu] at h
    exact absurd h (by simp)
  · rw [if_neg hu] at h
    refine ⟨hu, ?_⟩
    by_cases hrem : removedMsgsOf ct stc target msgs1 = []
    · rw [if_pos hrem] at h
      exact Or.inl ⟨hrem, (Except.ok.inj h).symm⟩
    · rw [if_neg hrem] at h
      cases hsys : msgs1.any (fun m => m.role == "system") with
      | true =>
        rw [hsys] at h
        simp only [if_pos] at h
        exact Or.inr ⟨hrem, Or.inl ⟨rfl, (Except.ok.inj h).symm⟩⟩
      | false =>
        rw [hsys] at h
        simp only [Bool.false_eq_true, if_false] at h
        exact Or.inr ⟨hrem, Or.inr ⟨rfl, (Except.ok.inj h).symm⟩⟩

/-- `stage2` never raises when a user message is present. -/
theorem stage2_ne_error (ct : String → ℕ) (tr : String → ℕ → String)
    (stc : List String → String) (target pmt : ℕ) {msgs1 : List Message}
    (hu : (zi 0 msgs1).filter (fun p => p.2.role == "user") ≠ []) :
    ∃ out, stage2 ct tr stc target pmt msgs1 = .ok out := by
  simp only [stage2, if_neg hu]
  by_cases hrem : removedMsgsOf ct stc target msgs1 = []
  · exact ⟨_, by rw [if_pos hrem]⟩
  · rw [if_neg hrem]
    cases hsys : msgs1.any (fun m => m.role == "system") with
    | true => exact ⟨_, by rw [if_pos rfl]⟩
    | false => exact ⟨_, by rw [if_neg (by simp)]⟩

/-- The pruning loop splits its input into the removed prefix and the kept
suffix. -/
theorem pruneLoop_append (target : ℕ) (presTok : ℤ) (cap : ℕ) :
    ∀ (l : List ((ℕ × Message) × ℕ)) (ptok : ℤ) (iters : ℕ),
      (pruneLoop target presTok cap l ptok iters).1
        ++ (pruneLoop target presTok cap l ptok iters).2 = l := by
  intro l
  induction l with
  | nil => intro ptok iters; rfl
  | cons x rest ih =>
    intro ptok iters
    simp only [pruneLoop]
    by_cases h1 : presTok + ptok ≤ (target : ℤ)
    · rw [if_pos h1]; rfl
    · rw [if_neg h1]
      by_cases h2 : cap ≤ iters
      · rw [if_pos h2]; rfl
      · rw [if_neg h2]
        show x :: ((pruneLoop target presTok cap rest (ptok - (x.2 : ℤ)) (iters + 1)).1
          ++ (pruneLoop target presTok cap rest (ptok - (x.2 : ℤ)) (iters + 1)).2) = x :: rest
        rw [ih]

/-- When something was removed, at least one message is missing from the
survivors. -/
theorem survivors_length_lt {ct : String → ℕ} {stc : List String → String}
    {target : ℕ} {msgs1 : List Message}
    (hrem : removedMsgsOf ct stc target msgs1 ≠ []) :
    (survivorsOf ct stc target msgs1).length < msgs1.length := by
  -- the first removed pair
  obtain ⟨r0, rs, hr0⟩ : ∃ r0 rs, (removedAndKept ct stc target msgs1).1 = r0 :: rs := by
    rcases h : (removedAndKept ct stc target msgs1).1 with - | ⟨r0, rs⟩
    · exact absurd (by unfold removedMsgsOf; rw [h]; rfl) hrem
    · exact ⟨r0, rs, rfl⟩
  -- removed ++ kept is the token-tagged prunable list
  have hsplit : (removedAndKept ct stc target msgs1).1
      ++ (removedAndKept ct stc target msgs1).2
      = (prunablePairs msgs1).map
          (fun p => (p, estimate_tokens_for_message ct stc p.2)) := by
    unfold removedAndKept
    exact pruneLoop_append _ _ _ _ _ _
  -- r0 is a prunable pair
  have hr0prun : r0.1 ∈ prunablePairs msgs1 := by
    have : r0 ∈ (prunablePairs msgs1).map
        (fun p => (p, estimate_tokens_for_message ct stc p.2)) := by
      rw [← hsplit, hr0]
      simp
    rcases List.mem_map.mp this with ⟨p, hp, hpe⟩
    have : r0.1 = p := by rw [← hpe]
    rw [this]
    exact hp
  have hr0zi : r0.1 ∈ zi 0 msgs1 := (List.mem_filter.mp hr0prun).1
  -- r0's index is in no preserved slot
  have hnotpres : ∀ j ∈ (preservedPairs msgs1).map (fun p => p.1), ¬ j = r0.1.1 := by
    have := (List.mem_filter.mp hr0prun).2
    simp only [Bool.not_eq_eq_eq_not, Bool.not_true, List.any_eq_false] at this
    intro j hj heq
    rcases List.mem_map.mp hj with ⟨q, hq, rfl⟩
    have := this q hq
    simp [heq] at this
  -- r0's index is in no kept slot (indices are strictly increasing)
  have hpw : ((prunablePairs msgs1).map
      (fun p => (p, estimate_tokens_for_message ct stc p.2))).Pairwise
        (fun a b => a.1.1 < b.1.1) := by
    have h1 : (prunablePairs msgs1).Pairwise (fun a b => a.1 < b.1) :=
      List.Pairwise.sublist (List.filter_sublist _) (zi_pairwise_fst 0 msgs1)
    rw [List.pairwise_map]
    exact h1
  have hnotkept : ∀ q ∈ (removedAndKept ct stc target msgs1).2, r0.1.1 < q.1.1 := by
    rw [← hsplit] at hpw
    rw [hr0] at hpw
    intro q hq
    exact (List.pairwise_cons.mp hpw).1 q (List.mem_append_right _ hq)
  -- the survivors filter rejects r0.1
  have hfalse : (fun (p : ℕ × Message) =>
      ((preservedPairs msgs1).map (fun p => p.1)).any (fun j => j == p.1)
        || (((removedAndKept ct stc target msgs1).2).map (fun q => q.1.1)).any
            (fun j => j == p.1)) r0.1 = false := by
    show (((preservedPairs msgs1).map (fun p => p.1)).any
        (fun j => j == r0.1.1)
      || (((removedAndKept ct stc target msgs1).2).map (fun q => q.1.1)).any
        (fun j => j == r0.1.1)) = false
    rw [Bool.or_eq_false_iff]
    constructor
    · rw [List.any_eq_false]
      intro j hj
      simp [hnotpres j hj]
    · rw [List.any_eq_false]
      intro j hj
      rcases List.mem_map.mp hj with ⟨q, hq, rfl⟩
      have := hnotkept q hq
      simp
      omega
  -- hence the filter is strictly shorter
  obtain ⟨l1, l2, hdecomp⟩ := List.append_of_mem hr0zi
  have hgen : ∀ P : ℕ × Message → Bool, P r0.1 = false →
      ((zi 0 msgs1).filter P).length < (zi 0 msgs1).length := by
    intro P hPf
    rw [hdecomp, List.filter_append, List.filter_cons, hPf]
    simp only [Bool.false_eq_true, if_false, List.length_append, List.length_cons]
    have h1 := List.length_filter_le P l1
    have h2 := List.length_filter_le P l2
    omega
  have hlt := hgen (fun (p : ℕ × Message) =>
      ((preservedPairs msgs1).map (fun p => p.1)).any (fun j => j == p.1)
        || (((removedAndKept ct stc target msgs1).2).map (fun q => q.1.1)).any
            (fun j => j == p.1)) hfalse
  unfold survivorsOf
  rw [List.length_map]
  calc _ < (zi 0 msgs1).length := hlt
  _ = msgs1.length := zi_length 0 msgs1

/-- `insert_index` over a list with one more element at the end. -/
theorem insPos_concat (l : List Message) (a : Message) :
    insPos (l ++ [a]) = if a.role == "system" then l.length + 1 else insPos l := by
  unfold insPos
  rw [zi_append, Nat.zero_add, List.foldl_append]
  rfl

theorem insPos_le (l : List Message) : insPos l ≤ l.length := by
  induction l using List.reverseRecOn with
  | nil => exact le_refl 0
  | append_singleton l a ih =>
    rw [insPos_concat]
    by_cases hs : (a.role == "system") = true
    · rw [if_pos hs]; simp
    · rw [if_neg hs]; simp; omega

theorem insPos_no_system (l : List Message) (h : ∀ m ∈ l, m.role ≠ "system") :
    insPos l = 0 := by
  induction l using List.reverseRecOn with
  | nil => rfl
  | append_singleton l a ih =>
    rw [insPos_concat, if_neg (by simp [h a (by simp)])]
    exact ih (fun m hm => h m (List.mem_append_left _ hm))

/-- `insert_index` points just past the last system message: nothing at or
after it is a system message, and unless it is 0 the entry right before it is
one. -/
theorem insPos_spec (l : List Message) :
    (∀ k m', insPos l ≤ k → l[k]? = some m' → m'.role ≠ "system")
    ∧ (insPos l = 0
       ∨ ∃ m', l[insPos l - 1]? = some m' ∧ m'.role = "system") := by
  induction l using List.reverseRecOn with
  | nil =>
    refine ⟨fun k m' _ h => by simp at h, Or.inl rfl⟩
  | append_singleton l a ih =>
    obtain ⟨ih1, ih2⟩ := ih
    rw [insPos_concat]
    by_cases hs : a.role = "system"
    · rw [if_pos (by simp [hs])]
      constructor
      · intro k m' hk hget
        have : k < l.length + 1 := by
          rcases List.getElem?_eq_some_iff.mp hget with ⟨h, -⟩
          simpa using h
        omega
      · right
        refine ⟨a, ?_, hs⟩
        simp
    · rw [if_neg (by simp [hs])]
      constructor
      · intro k m' hk hget
        rcases Nat.lt_or_ge k l.length with hlt | hge
        · refine ih1 k m' hk ?_
          rwa [List.getElem?_append_left hlt] at hget
        · have hk1 : k < l.length + 1 := by
            rcases List.getElem?_eq_some_iff.mp hget with ⟨h, -⟩
            simpa using h
          have hkl : k = l.length := by omega
          subst hkl
          have : m' = a := by
            have : (l ++ [a])[l.length]? = some a := by simp
            rw [this] at hget
            exact (Option.some.inj hget).symm
          rwa [this]
      · rcases ih2 with h0 | ⟨m', hm', hrole⟩
        · exact Or.inl h0
        · right
          refine ⟨m', ?_, hrole⟩
          have hlt : insPos l - 1 < l.length := by
            rcases List.getElem?_eq_some_iff.mp hm' with ⟨h, -⟩
            exact h
          rwa [List.getElem?_append_left hlt]

/-- Nothing removed means every message survives. -/
theorem survivors_eq_of_no_removed {ct : String → ℕ} {stc : List String → String}
    {target : ℕ} {msgs1 : List Message}
    (hrem : removedMsgsOf ct stc target msgs1 = []) :
    survivorsOf ct stc target msgs1 = msgs1 := by
  have hpairs : (removedAndKept ct stc target msgs1).1 = [] := by
    unfold removedMsgsOf at hrem
    exact List.map_eq_nil_iff.mp hrem
  have hsplit : (removedAndKept ct stc target msgs1).1
      ++ (removedAndKept ct stc target msgs1).2
      = (prunablePairs msgs1).map
          (fun p => (p, estimate_tokens_for_message ct stc p.2)) := by
    unfold removedAndKept
    exact pruneLoop_append _ _ _ _ _ _
  have hkept : (removedAndKept ct stc target msgs1).2
      = (prunablePairs msgs1).map
          (fun p => (p, estimate_tokens_for_message ct stc p.2)) := by
    rw [hpairs] at hsplit
    simpa using hsplit
  unfold survivorsOf
  have hall : ∀ p ∈ zi 0 msgs1,
      (((preservedPairs msgs1).map (fun p => p.1)).any (fun j => j == p.1)
        || (((removedAndKept ct stc target msgs1).2).map (fun q => q.1.1)).any
            (fun j => j == p.1)) = true := by
    intro p hp
    by_cases hpres : ((preservedPairs msgs1).map (fun q => q.1)).any
        (fun j => j == p.1) = true
    · simp [hpres]
    · have hprun : p ∈ prunablePairs msgs1 := by
        refine List.mem_filter.mpr ⟨hp, ?_⟩
        simp only [Bool.not_eq_eq_eq_not, Bool.not_true, List.any_eq_false]
        intro q hq
        by_contra hc
        refine hpres (List.any_eq_true.mpr ⟨q.1, List.mem_map.mpr ⟨q, hq, rfl⟩, ?_⟩)
        simpa using hc
      have : p.1 ∈ ((removedAndKept ct stc target msgs1).2).map (fun q => q.1.1) := by
        rw [hkept, List.map_map]
        exact List.mem_map.mpr ⟨p, hprun, rfl⟩
      have : ((List.map (fun q => q.1.1) (removedAndKept ct stc target msgs1).2).any
          (fun j => j == p.1)) = true :=
        List.any_eq_true.mpr ⟨p.1, this, by exact beq_self_eq_true _⟩
      simp [this]
  show ((zi 0 msgs1).filter
      (fun p => ((preservedPairs msgs1).map (fun p => p.1)).any (fun j => j == p.1)
        || (((removedAndKept ct stc target msgs1).2).map (fun q => q.1.1)).any
            (fun j => j == p.1))).map (fun p => p.2) = msgs1
  rw [List.filter_eq_self.mpr hall, zi_map_snd]

/-! ### Claims about the enforcer -/

/-- A concrete token counter (one token per character), used in witnesses. -/
def charCount : String → ℕ := fun s => s.data.length

/-- A concrete deterministic prefix truncation, used in witnesses. -/
def charTrunc : String → ℕ → String := fun s n => String.mk (s.data.take n)

/-- A concrete tool-call serializer, used in witnesses. -/
def joinCalls : List String → String := fun l => String.intercalate "," l

set_option maxRecDepth 10000 in
/-- C1: the spec says no operation raises a fatal error on well-formed input,
but the code does: the debug statement `print(msgs[1])` (base.py:136) raises
`IndexError` on any input with fewer than two messages, and an over-budget
input without user-role messages reaches the recency loop (base.py:188-189)
with the local `preserved_ids` never assigned, raising `NameError`. -/
theorem claim_C1_enforce_raises :
    enforce_context_limit charCount charTrunc joinCalls none 512 [] none none
      = .error "IndexError: list index out of range"
    ∧ enforce_context_limit charCount charTrunc joinCalls none 512
        (List.replicate 3 ⟨"system", .str (String.mk (List.replicate 400 'a')), none, []⟩)
        (some 1100) (some 512)
      = .error "NameError: name 'preserved_ids' is not defined" :=
  ⟨rfl, by decide⟩

/-- C2: the fast path is value-correct for two or more messages, but the
particular instance the claim names — Scenario A, the single message
`[system: "You are helpful"]` with `limit=65536, margin=512`, whose batch
estimate is far below target — never reaches it: the debug `print(msgs[1])`
raises `IndexError` first, instead of returning the message unchanged. -/
theorem claim_C2_scenarioA_raises :
    enforce_context_limit charCount charTrunc joinCalls none 512
      [⟨"system", .str "You are helpful", none, []⟩] (some 65536) (some 512)
      = .error "IndexError: list index out of range" := rfl

/-- C4: whenever `enforce_context_limit` returns, the surviving messages
appear in their input relative order — the output is the input itself (fast
path), its Stage-1 image (positionwise), or a sublist of the Stage-1 image
possibly with one synthesized notice inserted; pruning never reorders. -/
theorem claim_C4_order_preserved (ct : String → ℕ) (tr : String → ℕ → String)
    (stc : List String → String) (iL : Option ℕ) (iM : ℕ) (msgs : List Message)
    (mcl sm : Option ℕ) (out : List Message)
    (h : enforce_context_limit ct tr stc iL iM msgs mcl sm = .ok out) :
    out = msgs
    ∨ ∃ core : List Message,
        core.Sublist (msgs.map (stage1Msg ct tr (pmtOf (targetOf iL iM mcl sm))))
        ∧ (out = core ∨ ∃ pos nt, out = core.insertIdx pos nt) := by
  obtain ⟨-, hcase⟩ := enforce_ok_cases h
  rcases hcase with ⟨-, rfl⟩ | ⟨-, -, rfl⟩ | ⟨-, -, hs2⟩
  · exact Or.inl rfl
  · exact Or.inr ⟨_, List.Sublist.refl _, Or.inl rfl⟩
  · obtain ⟨-, hout⟩ := stage2_ok hs2
    rcases hout with ⟨-, rfl⟩ | ⟨-, ⟨-, rfl⟩ | ⟨-, rfl⟩⟩
    · exact Or.inr ⟨_, survivors_sublist _ _ _ _, Or.inl rfl⟩
    · exact Or.inr ⟨_, survivors_sublist _ _ _ _, Or.inr ⟨_, _, rfl⟩⟩
    · exact Or.inr ⟨_, survivors_sublist _ _ _ _, Or.inr ⟨_, _, rfl⟩⟩

/-- Witness for C4 at a concrete successful call. -/
theorem claim_C4_order_preserved_witness :
    enforce_context_limit charCount charTrunc joinCalls none 512
        [⟨"system", .str "a", none, []⟩, ⟨"user", .str "b", none, []⟩] none none
      = .ok [⟨"system", .str "a", none, []⟩, ⟨"user", .str "b", none, []⟩]
    ∧ (([⟨"system", .str "a", none, []⟩, ⟨"user", .str "b", none, []⟩] : List Message)
        = [⟨"system", .str "a", none, []⟩, ⟨"user", .str "b", none, []⟩]
      ∨ ∃ core : List Message,
          core.Sublist (([⟨"system", .str "a", none, []⟩, ⟨"user", .str "b", none, []⟩] :
              List Message).map (stage1Msg charCount charTrunc
                (pmtOf (targetOf none 512 none none))))
          ∧ (([⟨"system", .str "a", none, []⟩, ⟨"user", .str "b", none, []⟩] : List Message)
              = core
            ∨ ∃ pos nt, ([⟨"system", .str "a", none, []⟩, ⟨"user", .str "b", none, []⟩] :
                List Message) = core.insertIdx pos nt)) :=
  ⟨rfl, claim_C4_order_preserved charCount charTrunc joinCalls none 512
    [⟨"system", .str "a", none, []⟩, ⟨"user", .str "b", none, []⟩] none none
    [⟨"system", .str "a", none, []⟩, ⟨"user", .str "b", none, []⟩] rfl⟩

/-- C5: with at least 4 messages and at least one user message,
`enforce_context_limit` succeeds and every system message, the first user
message, and each of the last 4 messages of the input is present in the
output — either verbatim or as its Stage-1 truncation — regardless of
whether pruning was triggered. -/
theorem claim_C5_preserved_inclusion (ct : String → ℕ) (tr : String → ℕ → String)
    (stc : List String → String) (iL : Option ℕ) (iM : ℕ) (msgs : List Message)
    (mcl sm : Option ℕ) (h4 : 4 ≤ msgs.length)
    (hu : ∃ m ∈ msgs, m.role = "user") :
    ∃ out, enforce_context_limit ct tr stc iL iM msgs mcl sm = .ok out
      ∧ ∀ i m, msgs[i]? = some m →
        (m.role = "system"
          ∨ (m.role = "user" ∧ ∀ j, j < i → ∀ m', msgs[j]? = some m' → m'.role ≠ "user")
          ∨ msgs.length ≤ i + 4) →
        (m ∈ out ∨ stage1Msg ct tr (pmtOf (targetOf iL iM mcl sm)) m ∈ out) := by
  have hlen2 : ¬ msgs.length < 2 := by omega
  obtain ⟨mu, humem, hurole⟩ := hu
  obtain ⟨iu, hiu⟩ := List.mem_iff_getElem?.mp humem
  have huser1 : (zi 0 (msgs.map (stage1Msg ct tr (pmtOf (targetOf iL iM mcl sm))))).filter
      (fun p => p.2.role == "user") ≠ [] := by
    have hget1 : (msgs.map (stage1Msg ct tr (pmtOf (targetOf iL iM mcl sm))))[iu]?
        = some (stage1Msg ct tr (pmtOf (targetOf iL iM mcl sm)) mu) := by
      rw [List.getElem?_map, hiu]
      rfl
    have hmem1 : (iu, stage1Msg ct tr (pmtOf (targetOf iL iM mcl sm)) mu)
        ∈ zi 0 (msgs.map (stage1Msg ct tr (pmtOf (targetOf iL iM mcl sm)))) :=
      mem_zi.mpr ⟨iu, by simp, hget1⟩
    exact List.ne_nil_of_mem
      (List.mem_filter.mpr ⟨hmem1, by simp [stage1Msg_role, hurole]⟩)
  by_cases hfast : estimate_tokens_for_messages ct stc msgs ≤ targetOf iL iM mcl sm
  · refine ⟨msgs, ?_, ?_⟩
    · simp only [enforce_context_limit]
      rw [if_neg hlen2, if_pos hfast]
    · intro i m hget _
      exact Or.inl (List.mem_iff_getElem?.mpr ⟨i, hget⟩)
  · by_cases hs1 : estimate_tokens_for_messages ct stc
        (msgs.map (stage1Msg ct tr (pmtOf (targetOf iL iM mcl sm))))
        ≤ targetOf iL iM mcl sm
    · refine ⟨msgs.map (stage1Msg ct tr (pmtOf (targetOf iL iM mcl sm))), ?_, ?_⟩
      · simp only [enforce_context_limit]
        rw [if_neg hlen2, if_neg hfast, if_pos hs1]
      · intro i m hget _
        right
        refine List.mem_iff_getElem?.mpr ⟨i, ?_⟩
        rw [List.getElem?_map, hget]
        rfl
    · obtain ⟨out, hout⟩ := stage2_ne_error ct tr stc (targetOf iL iM mcl sm)
        (pmtOf (targetOf iL iM mcl sm)) huser1
      refine ⟨out, ?_, ?_⟩
      · simp only [enforce_context_limit]
        rw [if_neg hlen2, if_neg hfast, if_neg hs1]
        exact hout
      · intro i m hget hspec
        right
        have hget1 : (msgs.map (stage1Msg ct tr (pmtOf (targetOf iL iM mcl sm))))[i]?
            = some (stage1Msg ct tr (pmtOf (targetOf iL iM mcl sm)) m) := by
          rw [List.getElem?_map, hget]
          rfl
        have hmem1 : (i, stage1Msg ct tr (pmtOf (targetOf iL iM mcl sm)) m)
            ∈ zi 0 (msgs.map (stage1Msg ct tr (pmtOf (targetOf iL iM mcl sm)))) :=
          mem_zi.mpr ⟨i, by simp, hget1⟩
        have hpres : i ∈ (preservedPairs
            (msgs.map (stage1Msg ct tr (pmtOf (targetOf iL iM mcl sm))))).map
              (fun p => p.1) := by
          rcases hspec with hsys | ⟨hrole, hfirst⟩ | hrec
          · exact preserved_of_system hmem1 (by rw [stage1Msg_role]; exact hsys)
          · refine preserved_of_first_user hget1 (by rw [stage1Msg_role]; exact hrole) ?_
            intro j hj m' hget'
            rw [List.getElem?_map] at hget'
            rcases hmj : msgs[j]? with - | mj
            · rw [hmj] at hget'
              simp at hget'
            · rw [hmj] at hget'
              have hm' : stage1Msg ct tr (pmtOf (targetOf iL iM mcl sm)) mj = m' := by
                simpa using hget'
              rw [← hm', stage1Msg_role]
              exact hfirst j hj mj hmj
          · refine preserved_of_recent hget1 ?_
            rw [List.length_map]
            exact hrec
        have hsurv := mem_survivors_of_preserved ct stc (targetOf iL iM mcl sm)
          hmem1 hpres
        obtain ⟨-, hshape⟩ := stage2_ok hout
        rcases hshape with ⟨-, rfl⟩ | ⟨-, ⟨-, rfl⟩ | ⟨-, rfl⟩⟩
        · exact hsurv
        · exact (List.mem_insertIdx (insPos_le _)).mpr (Or.inr hsurv)
        · exact (List.mem_insertIdx (Nat.zero_le _)).mpr (Or.inr hsurv)

/-- Witness for C5 at a concrete input with 4 messages and a user message. -/
theorem claim_C5_preserved_inclusion_witness :
    ((4 : ℕ) ≤ ([⟨"system", .str "s", none, []⟩, ⟨"user", .str "u", none, []⟩,
        ⟨"assistant", .str "a", none, []⟩, ⟨"user", .str "v", none, []⟩] :
        List Message).length
      ∧ ∃ m ∈ ([⟨"system", .str "s", none, []⟩, ⟨"user", .str "u", none, []⟩,
          ⟨"assistant", .str "a", none, []⟩, ⟨"user", .str "v", none, []⟩] :
          List Message), m.role = "user")
    ∧ ∃ out, enforce_context_limit charCount charTrunc joinCalls none 512
          [⟨"system", .str "s", none, []⟩, ⟨"user", .str "u", none, []⟩,
           ⟨"assistant", .str "a", none, []⟩, ⟨"user", .str "v", none, []⟩] none none
          = .ok out
        ∧ ∀ i m, ([⟨"system", .str "s", none, []⟩, ⟨"user", .str "u", none, []⟩,
            ⟨"assistant", .str "a", none, []⟩, ⟨"user", .str "v", none, []⟩] :
            List Message)[i]? = some m →
          (m.role = "system"
            ∨ (m.role = "user" ∧ ∀ j, j < i →
                ∀ m', ([⟨"system", .str "s", none, []⟩, ⟨"user", .str "u", none, []⟩,
                  ⟨"assistant", .str "a", none, []⟩, ⟨"user", .str "v", none, []⟩] :
                  List Message)[j]? = some m' → m'.role ≠ "user")
            ∨ ([⟨"system", .str "s", none, []⟩, ⟨"user", .str "u", none, []⟩,
                ⟨"assistant", .str "a", none, []⟩, ⟨"user", .str "v", none, []⟩] :
                List Message).length ≤ i + 4) →
          (m ∈ out ∨ stage1Msg charCount charTrunc
              (pmtOf (targetOf none 512 none none)) m ∈ out) :=
  ⟨⟨by decide, ⟨⟨"user", .str "u", none, []⟩, by decide, rfl⟩⟩,
    claim_C5_preserved_inclusion charCount charTrunc joinCalls none 512
      [⟨"system", .str "s", none, []⟩, ⟨"user", .str "u", none, []⟩,
       ⟨"assistant", .str "a", none, []⟩, ⟨"user", .str "v", none, []⟩] none none
      (by decide) ⟨⟨"user", .str "u", none, []⟩, by decide, rfl⟩⟩

/-- C6: when pruning removes at least one message, the output is the
reassembled survivors with exactly one synthesized system summary inserted
immediately after the last pre-existing system message (nothing at or past
the insert position is a system message, and unless the position is 0 the
entry before it is one), or at index 0 when the input has no system message;
when nothing is removed no summary is inserted and the output has exactly as
many entries as the input, so the output never exceeds the input length plus
one summary. -/
theorem claim_C6_summary_notice (ct : String → ℕ) (tr : String → ℕ → String)
    (stc : List String → String) (iL : Option ℕ) (iM : ℕ) (msgs : List Message)
    (mcl sm : Option ℕ) (out : List Message) (target pmt : ℕ)
    (msgs1 rem : List Message)
    (h : enforce_context_limit ct tr stc iL iM msgs mcl sm = .ok out)
    (htarget : target = targetOf iL iM mcl sm)
    (hpmt : pmt = pmtOf target)
    (hmsgs1 : msgs1 = msgs.map (stage1Msg ct tr pmt))
    (hremdef : rem = removedMsgsOf ct stc target msgs1) :
    ((estimate_tokens_for_messages ct stc msgs ≤ target
      ∨ estimate_tokens_for_messages ct stc msgs1 ≤ target
      ∨ rem = []) → out.length = msgs.length)
    ∧ (rem ≠ [] →
       ¬ estimate_tokens_for_messages ct stc msgs ≤ target →
       ¬ estimate_tokens_for_messages ct stc msgs1 ≤ target →
         out = (survivorsOf ct stc target msgs1).insertIdx
             (insPos (survivorsOf ct stc target msgs1)) (noticeOf tr pmt rem)
         ∧ out.length = (survivorsOf ct stc target msgs1).length + 1
         ∧ out.length ≤ msgs.length
         ∧ ((∀ m ∈ msgs, m.role ≠ "system") →
              insPos (survivorsOf ct stc target msgs1) = 0)
         ∧ (∀ k m', insPos (survivorsOf ct stc target msgs1) ≤ k →
              (survivorsOf ct stc target msgs1)[k]? = some m' → m'.role ≠ "system")
         ∧ (insPos (survivorsOf ct stc target msgs1) = 0
            ∨ ∃ m', (survivorsOf ct stc target msgs1)[insPos
                  (survivorsOf ct stc target msgs1) - 1]? = some m'
                ∧ m'.role = "system")) := by
  subst htarget
  subst hpmt
  subst hmsgs1
  subst hremdef
  obtain ⟨hlen, hcase⟩ := enforce_ok_cases h
  constructor
  · intro hante
    rcases hcase with ⟨hfast, rfl⟩ | ⟨hfast, hs1, rfl⟩ | ⟨hfast, hs1, hs2⟩
    · rfl
    · exact List.length_map _ _
    · have hremnil : removedMsgsOf ct stc (targetOf iL iM mcl sm)
          (msgs.map (stage1Msg ct tr (pmtOf (targetOf iL iM mcl sm)))) = [] := by
        rcases hante with h1 | h1 | h1
        · exact absurd h1 hfast
        · exact absurd h1 hs1
        · exact h1
      obtain ⟨-, hshape⟩ := stage2_ok hs2
      rcases hshape with ⟨-, rfl⟩ | ⟨hne, -⟩
      · rw [survivors_eq_of_no_removed hremnil]
        exact List.length_map _ _
      · exact absurd hremnil hne
  · intro hne hfast hs1
    rcases hcase with ⟨hf, -⟩ | ⟨-, hs, -⟩ | ⟨-, -, hs2⟩
    · exact absurd hf hfast
    · exact absurd hs hs1
    · obtain ⟨-, hshape⟩ := stage2_ok hs2
      rcases hshape with ⟨hnil, -⟩ | ⟨-, hbr⟩
      · exact absurd hnil hne
      · have hout : out = (survivorsOf ct stc (targetOf iL iM mcl sm)
            (msgs.map (stage1Msg ct tr (pmtOf (targetOf iL iM mcl sm))))).insertIdx
              (insPos (survivorsOf ct stc (targetOf iL iM mcl sm)
                (msgs.map (stage1Msg ct tr (pmtOf (targetOf iL iM mcl sm))))))
              (noticeOf tr (pmtOf (targetOf iL iM mcl sm))
                (removedMsgsOf ct stc (targetOf iL iM mcl sm)
                  (msgs.map (stage1Msg ct tr (pmtOf (targetOf iL iM mcl sm)))))) := by
          rcases hbr with ⟨hsys, rfl⟩ | ⟨hsys, rfl⟩
          · rfl
          · have hzero : insPos (survivorsOf ct stc (targetOf iL iM mcl sm)
                (msgs.map (stage1Msg ct tr (pmtOf (targetOf iL iM mcl sm))))) = 0 := by
              apply insPos_no_system
              intro m hm
              have hm1 : m ∈ msgs.map (stage1Msg ct tr (pmtOf (targetOf iL iM mcl sm))) :=
                (survivors_sublist _ _ _ _).subset hm
              have := List.any_eq_false.mp hsys m hm1
              simpa using this
            rw [hzero]
        refine ⟨hout, ?_, ?_, ?_, (insPos_spec _).1, (insPos_spec _).2⟩
        · rw [hout]
          exact List.length_insertIdx _ _ (insPos_le _)
        · have h1 := survivors_length_lt hne
          have h2 : (msgs.map (stage1Msg ct tr (pmtOf (targetOf iL iM mcl sm)))).length
              = msgs.length := List.length_map _ _
          rw [hout, List.length_insertIdx _ _ (insPos_le _)]
          omega
        · intro hnosys
          apply insPos_no_system
          intro m hm
          have hm1 : m ∈ msgs.map (stage1Msg ct tr (pmtOf (targetOf iL iM mcl sm))) :=
            (survivors_sublist _ _ _ _).subset hm
          rcases List.mem_map.mp hm1 with ⟨m0, hm0, rfl⟩
          rw [stage1Msg_role]
          exact hnosys m0 hm0

/-- Witness for C6 at a concrete successful (fast-path) call. -/
theorem claim_C6_summary_notice_witness :
    enforce_context_limit charCount charTrunc joinCalls none 512
        [⟨"system", .str "a", none, []⟩, ⟨"user", .str "b", none, []⟩] none none
      = .ok [⟨"system", .str "a", none, []⟩, ⟨"user", .str "b", none, []⟩]
    ∧ (((estimate_tokens_for_messages charCount joinCalls
          [⟨"system", .str "a", none, []⟩, ⟨"user", .str "b", none, []⟩]
            ≤ targetOf none 512 none none
        ∨ estimate_tokens_for_messages charCount joinCalls
            (([⟨"system", .str "a", none, []⟩, ⟨"user", .str "b", none, []⟩] :
              List Message).map (stage1Msg charCount charTrunc
                (pmtOf (targetOf none 512 none none))))
            ≤ targetOf none 512 none none
        ∨ removedMsgsOf charCount joinCalls (targetOf none 512 none none)
            (([⟨"system", .str "a", none, []⟩, ⟨"user", .str "b", none, []⟩] :
              List Message).map (stage1Msg charCount charTrunc
                (pmtOf (targetOf none 512 none none)))) = []) →
        ([⟨"system", .str "a", none, []⟩, ⟨"user", .str "b", none, []⟩] :
          List Message).length
          = ([⟨"system", .str "a", none, []⟩, ⟨"user", .str "b", none, []⟩] :
            List Message).length)
      ∧ (removedMsgsOf charCount joinCalls (targetOf none 512 none none)
            (([⟨"system", .str "a", none, []⟩, ⟨"user", .str "b", none, []⟩] :
              List Message).map (stage1Msg charCount charTrunc
                (pmtOf (targetOf none 512 none none)))) ≠ [] →
         ¬ estimate_tokens_for_messages charCount joinCalls
            [⟨"system", .str "a", none, []⟩, ⟨"user", .str "b", none, []⟩]
              ≤ targetOf none 512 none none →
         ¬ estimate_tokens_for_messages charCount joinCalls
            (([⟨"system", .str "a", none, []⟩, ⟨"user", .str "b", none, []⟩] :
              List Message).map (stage1Msg charCount charTrunc
                (pmtOf (targetOf none 512 none none))))
              ≤ targetOf none 512 none none →
           ([⟨"system", .str "a", none, []⟩, ⟨"user", .str "b", none, []⟩] :
              List Message)
              = (survivorsOf charCount joinCalls (targetOf none 512 none none)
                  (([⟨"system", .str "a", none, []⟩, ⟨"user", .str "b", none, []⟩] :
                    List Message).map (stage1Msg charCount charTrunc
                      (pmtOf (targetOf none 512 none none))))).insertIdx
                  (insPos (survivorsOf charCount joinCalls (targetOf none 512 none none)
                    (([⟨"system", .str "a", none, []⟩, ⟨"user", .str "b", none, []⟩] :
                      List Message).map (stage1Msg charCount charTrunc
                        (pmtOf (targetOf none 512 none none))))))
                  (noticeOf charTrunc (pmtOf (targetOf none 512 none none))
                    (removedMsgsOf charCount joinCalls (targetOf none 512 none none)
                      (([⟨"system", .str "a", none, []⟩, ⟨"user", .str "b", none, []⟩] :
                        List Message).map (stage1Msg charCount charTrunc
                          (pmtOf (targetOf none 512 none none))))))
           ∧ ([⟨"system", .str "a", none, []⟩, ⟨"user", .str "b", none, []⟩] :
              List Message).length
              = (survivorsOf charCount joinCalls (targetOf none 512 none none)
                  (([⟨"system", .str "a", none, []⟩, ⟨"user", .str "b", none, []⟩] :
                    List Message).map (stage1Msg charCount charTrunc
                      (pmtOf (targetOf none 512 none none))))).length + 1
           ∧ ([⟨"system", .str "a", none, []⟩, ⟨"user", .str "b", none, []⟩] :
              List Message).length
              ≤ ([⟨"system", .str "a", none, []⟩, ⟨"user", .str "b", none, []⟩] :
                List Message).length
           ∧ ((∀ m ∈ ([⟨"system", .str "a", none, []⟩, ⟨"user", .str "b", none, []⟩] :
                List Message), m.role ≠ "system") →
                insPos (survivorsOf charCount joinCalls (targetOf none 512 none none)
                  (([⟨"system", .str "a", none, []⟩, ⟨"user", .str "b", none, []⟩] :
                    List Message).map (stage1Msg charCount charTrunc
                      (pmtOf (targetOf none 512 none none))))) = 0)
           ∧ (∀ k m', insPos (survivorsOf charCount joinCalls (targetOf none 512 none none)
                  (([⟨"system", .str "a", none, []⟩, ⟨"user", .str "b", none, []⟩] :
                    List Message).map (stage1Msg charCount charTrunc
                      (pmtOf (targetOf none 512 none none))))) ≤ k →
                (survivorsOf charCount joinCalls (targetOf none 512 none none)
                  (([⟨"system", .str "a", none, []⟩, ⟨"user", .str "b", none, []⟩] :
                    List Message).map (stage1Msg charCount charTrunc
                      (pmtOf (targetOf none 512 none none)))))[k]? = some m' →
                m'.role ≠ "system")
           ∧ (insPos (survivorsOf charCount joinCalls (targetOf none 512 none none)
                  (([⟨"system", .str "a", none, []⟩, ⟨"user", .str "b", none, []⟩] :
                    List Message).map (stage1Msg charCount charTrunc
                      (pmtOf (targetOf none 512 none none))))) = 0
              ∨ ∃ m', (survivorsOf charCount joinCalls (targetOf none 512 none none)
                    (([⟨"system", .str "a", none, []⟩, ⟨"user", .str "b", none, []⟩] :
                      List Message).map (stage1Msg charCount charTrunc
                        (pmtOf (targetOf none 512 none none)))))[insPos
                      (survivorsOf charCount joinCalls (targetOf none 512 none none)
                        (([⟨"system", .str "a", none, []⟩, ⟨"user", .str "b", none, []⟩] :
                          List Message).map (stage1Msg charCount charTrunc
                            (pmtOf (targetOf none 512 none none))))) - 1]? = some m'
                  ∧ m'.role = "system"))) :=
  ⟨rfl, claim_C6_summary_notice charCount charTrunc joinCalls none 512
    [⟨"system", .str "a", none, []⟩, ⟨"user", .str "b", none, []⟩] none none
    [⟨"system", .str "a", none, []⟩, ⟨"user", .str "b", none, []⟩]
    (targetOf none 512 none none) (pmtOf (targetOf none 512 none none))
    (([⟨"system", .str "a", none, []⟩, ⟨"user", .str "b", none, []⟩] :
      List Message).map (stage1Msg charCount charTrunc
        (pmtOf (targetOf none 512 none none))))
    (removedMsgsOf charCount joinCalls (targetOf none 512 none none)
      (([⟨"system", .str "a", none, []⟩, ⟨"user", .str "b", none, []⟩] :
        List Message).map (stage1Msg charCount charTrunc
          (pmtOf (targetOf none 512 none none)))))
    rfl rfl rfl rfl rfl⟩

/-! ### Frame property (C7): heap-explicit rendering

`enforceStore` renders `enforce_context_limit` with Python's heap made
explicit: the store is a list of `Message` objects addressed by index
(object identity); the caller passes the indices of its message objects, and
`msgs = [m.copy() for m in messages]` allocates fresh copies at the end of
the store.  Stage 1's in-place `m.content = truncate_text_by_tokens(...)`
mutates the store at the copies' indices only; the synthesized notice is one
more fresh allocation; everything else only reads.  The result component is
reported as the dereferenced message values. -/

/-- One Stage-1 step on the heap: truncate the object at index `r` in place
when its content is an over-long plain string. -/
def stage1Store (ct : String → ℕ) (tr : String → ℕ → String) (pmt : ℕ)
    (st : List Message) (r : ℕ) : List Message :=
  let m := st.getD r default
  match m.content with
  | .str s => if pmt < ct s then st.set r { m with content := .str (tr s pmt) } else st
  | .obj _ => st

/-- `enforce_context_limit` with the object heap threaded explicitly. -/
def enforceStore (ct : String → ℕ) (tr : String → ℕ → String)
    (stc : List String → String) (instLimit : Option ℕ) (instMargin : ℕ)
    (store : List Message) (refs : List ℕ) (mcl sm : Option ℕ) :
    Except String (List Message) × List Message :=
  let target := targetOf instLimit instMargin mcl sm
  let n := refs.length
  let store1 := store ++ refs.map (fun r => store.getD r default)
  let copyRefs := List.range' store.length n
  if n < 2 then (.error "IndexError: list index out of range", store1)
  else
    let vals0 := copyRefs.map (fun r => store1.getD r default)
    if estimate_tokens_for_messages ct stc vals0 ≤ target then (.ok vals0, store1)
    else
      let pmt := pmtOf target
      let store2 := copyRefs.foldl (stage1Store ct tr pmt) store1
      let vals1 := copyRefs.map (fun r => store2.getD r default)
      if estimate_tokens_for_messages ct stc vals1 ≤ target then (.ok vals1, store2)
      else
        match stage2 ct tr stc target pmt vals1 with
        | .error e => (.error e, store2)
        | .ok res =>
          if removedMsgsOf ct stc target vals1 = [] then (.ok res, store2)
          else (.ok res, store2 ++ [noticeOf tr pmt (removedMsgsOf ct stc target vals1)])

theorem take_set_of_le (l : List α) (i : ℕ) (a : α) (n : ℕ) (h : n ≤ i) :
    (l.set i a).take n = l.take n := by
  induction l generalizing i n with
  | nil => simp
  | cons x l ih =>
    cases i with
    | zero =>
      have : n = 0 := by omega
      simp [this]
    | succ i =>
      cases n with
      | zero => simp
      | succ n =>
        show x :: (l.set i a).take n = x :: l.take n
        rw [ih i n (by omega)]

theorem stage1Store_take (ct : String → ℕ) (tr : String → ℕ → String) (pmt : ℕ)
    (st : List Message) (r N : ℕ) (h : N ≤ r) :
    (stage1Store ct tr pmt st r).take N = st.take N := by
  cases hc : (st.getD r default).content with
  | str s =>
    simp only [stage1Store, hc]
    split
    · exact take_set_of_le st r _ N h
    · rfl
  | obj s => simp only [stage1Store, hc]

theorem foldl_stage1Store_take (ct : String → ℕ) (tr : String → ℕ → String)
    (pmt N : ℕ) :
    ∀ (rs : List ℕ) (st : List Message), (∀ r ∈ rs, N ≤ r) →
      (rs.foldl (stage1Store ct tr pmt) st).take N = st.take N := by
  intro rs
  induction rs with
  | nil => intro st _; rfl
  | cons r rs ih =>
    intro st hr
    rw [List.foldl_cons, ih (stage1Store ct tr pmt st r) (fun x hx => hr x (by simp [hx])),
      stage1Store_take ct tr pmt st r N (hr r (by simp))]

theorem stage1Store_length (ct : String → ℕ) (tr : String → ℕ → String) (pmt : ℕ)
    (st : List Message) (r : ℕ) : (stage1Store ct tr pmt st r).length = st.length := by
  cases hc : (st.getD r default).content with
  | str s =>
    simp only [stage1Store, hc]
    split
    · exact List.length_set st _ _
    · rfl
  | obj s => simp only [stage1Store, hc]

theorem foldl_stage1Store_length (ct : String → ℕ) (tr : String → ℕ → String)
    (pmt : ℕ) :
    ∀ (rs : List ℕ) (st : List Message),
      (rs.foldl (stage1Store ct tr pmt) st).length = st.length := by
  intro rs
  induction rs with
  | nil => intro st; rfl
  | cons r rs ih =>
    intro st
    rw [List.foldl_cons, ih, stage1Store_length]

/-- C7: `enforce_context_limit` never mutates the caller-owned message
objects — in the heap-explicit rendering, every branch (including the error
branches) returns a store whose first `store.length` entries, the
caller-owned objects with their `role`, `content`, `thinking` and
`tool_calls`, are exactly as before the call: Stage 1 truncation touches only
the freshly allocated copies, and the only other heap effect is allocating
the summary notice. -/
theorem claim_C7_no_caller_mutation (ct : String → ℕ) (tr : String → ℕ → String)
    (stc : List String → String) (iL : Option ℕ) (iM : ℕ) (store : List Message)
    (refs : List ℕ) (mcl sm : Option ℕ) :
    ((enforceStore ct tr stc iL iM store refs mcl sm).2).take store.length = store := by
  have htake1 : (store ++ refs.map (fun r => store.getD r default)).take store.length
      = store := List.take_left store _
  have hbound : ∀ r ∈ List.range' store.length refs.length, store.length ≤ r := by
    intro r hr
    have := List.mem_range'_1.mp hr
    omega
  have htake2 : ((List.range' store.length refs.length).foldl
      (stage1Store ct tr (pmtOf (targetOf iL iM mcl sm)))
      (store ++ refs.map (fun r => store.getD r default))).take store.length = store := by
    rw [foldl_stage1Store_take ct tr _ store.length _ _ hbound, htake1]
  have hlen2 : ((List.range' store.length refs.length).foldl
      (stage1Store ct tr (pmtOf (targetOf iL iM mcl sm)))
      (store ++ refs.map (fun r => store.getD r default))).length
      = store.length + refs.length := by
    rw [foldl_stage1Store_length]
    simp
  simp only [enforceStore]
  split
  · exact htake1
  · split
    · exact htake1
    · split
      · exact htake2
      · split
        · exact htake2
        · split
          · exact htake2
          · rw [List.take_append_of_le_length (by omega)]
            exact htake2

end MiniAgent
